import Mathlib

/-!
Shallow embedding of `pkg/iso8601/duration.go` (package iso8601).

Go `int64` values are modelled as `Int` together with an explicit two's
complement wrap (`wrap64`) at every operation where Go arithmetic can
overflow; Go `uint64` values are modelled as `Nat` reduced mod `2^64`.
Go `float64` values are modelled as exact rationals together with a
round-to-nearest-even rounding function (`roundDouble`) applied after
every floating-point operation, mirroring IEEE-754 binary64 arithmetic
in the normal range (the only range the code can reach).
Strings are modelled as `List Char`; fallible functions return `Except`.
-/

namespace ISO8601

/-- Largest signed 64-bit value, `1<<63 - 1`. -/
def maxInt64 : Int := 9223372036854775807

/-- Smallest signed 64-bit value, `-1 << 63`. -/
def minInt64 : Int := -9223372036854775808

/-- Two's-complement wrap of an integer into the signed 64-bit range;
Go's `int64` addition/multiplication behaves like this on overflow. -/
def wrap64 (i : Int) : Int :=
  (i + 9223372036854775808) % 18446744073709551616 - 9223372036854775808

/-- Go `uint64(x)` conversion of an `int64` value. -/
def u64ofInt (i : Int) : Nat := (i % 18446744073709551616).toNat

/-- Go `time.Duration` unit constants (nanosecond counts), as in the
`const` block of duration.go.  `Month = Day / 10 * 146097 / 4800 * 10`
uses integer division; every division below is exact. -/
def nanosecondC : Int := 1

def secondC : Int := 1000000000

def minuteC : Int := 60 * secondC

def hourC : Int := 60 * minuteC

/-- `Day = time.Hour * 24`. -/
def dayC : Int := hourC * 24

/-- `Week = Day * 7`. -/
def weekC : Int := dayC * 7

/-- `Month = Day / 10 * 146097 / 4800 * 10` (Gregorian average). -/
def monthC : Int := dayC / 10 * 146097 / 4800 * 10

/-- `Year = Month * 12`. -/
def yearC : Int := monthC * 12

/-- The `Duration` struct: eight signed 64-bit magnitude fields plus the
`Negative` sign flag. -/
structure Duration where
  Years : Int := 0
  Months : Int := 0
  Weeks : Int := 0
  Days : Int := 0
  Hours : Int := 0
  Minutes : Int := 0
  Seconds : Int := 0
  Nanoseconds : Int := 0
  Negative : Bool := false
deriving DecidableEq, Repr

/-- The two failure kinds of the package: `ErrOverflow` and
`ErrInvalidDuration{String: orig}` (the latter carries the original
input text). -/
inductive DurErr where
  | overflow : DurErr
  | invalidDuration : String → DurErr
deriving DecidableEq, Repr

deriving instance DecidableEq for Except

/-- `addInt` of duration.go: overflow-checked `int64` addition. -/
def addInt (base v : Int) : Except DurErr Int :=
  if base > 0 then
    if v > maxInt64 - base ∨ v < minInt64 + base then .error .overflow
    else .ok (base + v)
  else
    if v > maxInt64 + base ∨ v < minInt64 - base then .error .overflow
    else .ok (base + v)

/-- `multiplyInt` of duration.go: overflow-checked `int64`
multiplication (Go `/` on int64 truncates toward zero, `Int.tdiv`).
Callers always pass `base ≠ 0`. -/
def multiplyInt (base v : Int) : Except DurErr Int :=
  if base > 0 then
    if v > maxInt64.tdiv base ∨ v < minInt64.tdiv base then .error .overflow
    else .ok (base * v)
  else
    if v > minInt64.tdiv base ∨ v < maxInt64.tdiv base then .error .overflow
    else .ok (base * v)

/-- `addNano` of duration.go: `base + num*unit` with overflow checks. -/
def addNano (base num unit : Int) : Except DurErr Int :=
  match multiplyInt unit num with
  | .error e => .error e
  | .ok v => addInt base v

/-- `Duration.TimeDuration`: fold all fields into one nanosecond count
using the fixed-length constants, with overflow checks, negating at the
end when `Negative` is set. -/
def Duration.TimeDuration (d : Duration) : Except DurErr Int :=
  match addNano 0 d.Years yearC with
  | .error e => .error e
  | .ok n0 =>
  match addNano n0 d.Months monthC with
  | .error e => .error e
  | .ok n1 =>
  match addNano n1 d.Weeks weekC with
  | .error e => .error e
  | .ok n2 =>
  match addNano n2 d.Days dayC with
  | .error e => .error e
  | .ok n3 =>
  match addNano n3 d.Hours hourC with
  | .error e => .error e
  | .ok n4 =>
  match addNano n4 d.Minutes minuteC with
  | .error e => .error e
  | .ok n5 =>
  match addNano n5 d.Seconds secondC with
  | .error e => .error e
  | .ok n6 =>
  match addNano n6 d.Nanoseconds nanosecondC with
  | .error e => .error e
  | .ok n7 => .ok (if d.Negative then -n7 else n7)

/-- `NewDuration`: decompose a nanosecond count into
hours/minutes/seconds/nanoseconds (no calendar units).  The Go negation
`nanoseconds = -nanoseconds` is an `int64` negation, hence wraps at
`minInt64`; divisions truncate toward zero. -/
def NewDuration (nanoseconds : Int) : Duration :=
  let neg := nanoseconds < 0
  let n := if nanoseconds < 0 then wrap64 (-nanoseconds) else nanoseconds
  { Hours := n.tdiv hourC
    Minutes := (n.tmod hourC).tdiv minuteC
    Seconds := ((n.tmod hourC).tmod minuteC).tdiv secondC
    Nanoseconds := ((n.tmod hourC).tmod minuteC).tmod secondC
    Negative := neg }

/-! ### Decimal printing (`strconv.AppendInt` / `strconv.AppendUint`) -/

/-- Decimal digits of a natural number, most significant first; the
first argument is recursion fuel (one unit per digit, 64 always
suffices for the 64-bit values the package prints). -/
def natDigitsGo : Nat → Nat → List Char
  | 0, _ => []
  | fuel + 1, n =>
    if n < 10 then [Nat.digitChar n]
    else natDigitsGo fuel (n / 10) ++ [Nat.digitChar (n % 10)]

/-- Decimal representation of a natural number (`strconv.AppendUint`). -/
def natDigits (n : Nat) : List Char := natDigitsGo 64 n

/-- Decimal representation of a signed value (`strconv.AppendInt`). -/
def intToChars (v : Int) : List Char :=
  if v < 0 then '-' :: natDigits (-v).toNat else natDigits v.toNat

/-! ### `appendFrac` -/

/-- The digit-collecting loop of `appendFrac`: walks the `prec` least
significant decimal digits of `v` from least to most significant,
latching `pr` at the first nonzero digit and prepending every digit
seen once latched (so trailing zeros are dropped).  Returns the
collected digits (most significant first) and the final latch. -/
def appendFracGo : Nat → Nat → Bool → List Char → List Char × Bool
  | 0, _, pr, acc => (acc, pr)
  | prec + 1, v, pr, acc =>
    let d := v % 10
    let pr1 := pr || d ≠ 0
    appendFracGo prec (v / 10) pr1 (if pr1 then Nat.digitChar d :: acc else acc)

/-- `appendFrac` of duration.go: append the fraction `v / 10^prec`
(e.g. `.12345`) to `b`, omitting trailing zeros, and omitting the
decimal point when the fraction is zero. -/
def appendFrac (b : List Char) (v : Nat) (prec : Nat) : List Char :=
  match appendFracGo prec v false [] with
  | (acc, pr) => if pr then b ++ '.' :: acc else b

/-! ### `Duration.AppendFormat` / `Duration.String` -/

/-- The `S`-component block of `AppendFormat` (lines 214-237): combine
`Seconds` and `Nanoseconds` into one signed decimal-with-fraction.
`v` and `f` are Go `uint64` locals; note `v--` is a `uint64` decrement
(it wraps at 0). -/
def secondsChars (seconds nanoseconds : Int) : List Char :=
  let v := u64ofInt seconds
  let f := u64ofInt nanoseconds
  let neg := seconds < 0
  let v := if neg then (18446744073709551616 - v) % 18446744073709551616 else v
  let vf : Nat × Nat :=
    if nanoseconds < 0 then
      if neg then (v, (18446744073709551616 - f) % 18446744073709551616)
      else ((v + 18446744073709551615) % 18446744073709551616,
        u64ofInt (secondC + nanoseconds))
    else (v, f)
  let b := if neg then ['-'] else []
  let b := b ++ natDigits vf.1
  appendFrac b vf.2 9 ++ ['S']

/-- One optional `<integer><letter>` component of `AppendFormat`: the
`if d.X != 0 { AppendInt; append letter }` blocks, emitted iff the
field is nonzero. -/
def fieldChars (v : Int) (u : Char) : List Char :=
  if v ≠ 0 then intToChars v ++ [u] else []

/-- The optional time designator of `AppendFormat` (lines 194-200):
emitted iff any clock field is nonzero. -/
def timeMark (d : Duration) : List Char :=
  if d.Hours ≠ 0 ∨ d.Minutes ≠ 0 ∨ d.Seconds ≠ 0 ∨ d.Nanoseconds ≠ 0 then
    ['T']
  else []

/-- The optional seconds component of `AppendFormat` (lines 214-237):
emitted iff seconds or nanoseconds is nonzero. -/
def sChars (d : Duration) : List Char :=
  if d.Seconds ≠ 0 ∨ d.Nanoseconds ≠ 0 then
    secondsChars d.Seconds d.Nanoseconds
  else []

/-- Everything `AppendFormat` emits after the `P`. -/
def formatBody (d : Duration) : List Char :=
  fieldChars d.Years 'Y' ++ fieldChars d.Months 'M' ++
    fieldChars d.Weeks 'W' ++ fieldChars d.Days 'D' ++ timeMark d ++
    fieldChars d.Hours 'H' ++ fieldChars d.Minutes 'M' ++ sChars d

/-- `Duration.AppendFormat`: render the duration after `b`.  Each field
is emitted as `<integer><letter>` iff nonzero; `T` is emitted iff any
clock field is nonzero; if nothing besides the leading sign and `P` was
emitted (the buffer length still equals `pw`), `0D` is appended. -/
def Duration.AppendFormat (d : Duration) (b : List Char) : List Char :=
  let b := if d.Negative then b ++ ['-'] else b
  let b := b ++ ['P']
  let pw := b.length
  let b := b ++ fieldChars d.Years 'Y'
  let b := b ++ fieldChars d.Months 'M'
  let b := b ++ fieldChars d.Weeks 'W'
  let b := b ++ fieldChars d.Days 'D'
  let b := b ++ timeMark d
  let b := b ++ fieldChars d.Hours 'H'
  let b := b ++ fieldChars d.Minutes 'M'
  let b := b ++ sChars d
  if b.length = pw then b ++ ['0', 'D'] else b

/-- `Duration.String`: the textual form of a duration. -/
def Duration.String (d : Duration) : String :=
  .mk (d.AppendFormat [])

/-! ### Exact model of Go `float64` (IEEE-754 binary64, normal range)

A `float64` value is represented by the exact rational it denotes, and
every floating-point operation is modelled as the exact rational result
followed by `roundDouble`, the round-to-nearest (ties to even) map onto
53-bit mantissas.  Every value the duration code can produce lies well
inside the normal (finite, non-subnormal) range, where this model is
exact.  Values already representable (53-bit mantissa, power-of-two
denominator) are returned unchanged, which agrees with the general
normalisation path. -/

/-- Floor of the base-2 logarithm of a natural number (fuel-bounded
structural recursion; fuel 320 covers all magnitudes that arise). -/
def natLog2F : Nat → Nat → Nat
  | 0, _ => 0
  | fuel + 1, n => if 2 ≤ n then natLog2F fuel (n / 2) + 1 else 0

/-- Correct a candidate binade exponent for `a > 0` until
`2^e ≤ a < 2^(e+1)` (at most a few steps are ever needed). -/
def expAdj : Nat → ℚ → Int → Int
  | 0, _, e => e
  | fuel + 1, a, e =>
    if (2 : ℚ) ^ (e + 1) ≤ a then expAdj fuel a (e + 1)
    else if a < (2 : ℚ) ^ e then expAdj fuel a (e - 1)
    else e

/-- Binade exponent of a positive rational: the `e` with
`2^e ≤ a < 2^(e+1)`. -/
def findExp (a : ℚ) : Int :=
  expAdj 4 a ((natLog2F 320 a.num.toNat : Int) - (natLog2F 320 a.den : Int))

/-- Round a rational to the nearest integer, ties to even. -/
def roundHalfEven (q : ℚ) : Int :=
  let fl := ⌊q⌋
  let r := q - (fl : ℚ)
  if r < 1 / 2 then fl
  else if 1 / 2 < r then fl + 1
  else if fl % 2 = 0 then fl else fl + 1

/-- Whether a rational is exactly representable as a binary64 value in
the normal range: a power-of-two denominator and a numerator below
`2^53`. -/
def isRepr (q : ℚ) : Bool :=
  decide (q.den = 2 ^ natLog2F 320 q.den) &&
    decide (q.num.natAbs < 9007199254740992)

/-- Round an exact rational to the nearest binary64 value (normal
range), ties to even. -/
def roundDouble (q : ℚ) : ℚ :=
  if q = 0 then 0
  else if isRepr q then q
  else
    let a := |q|
    let e := findExp a
    let m := roundHalfEven (a * (2 : ℚ) ^ (52 - e))
    let r := (m : ℚ) * (2 : ℚ) ^ (e - 52)
    if q < 0 then -r else r

/-- Go `float64(i)` for an integer `i`. -/
def intToF (i : Int) : ℚ := roundDouble (i : ℚ)

/-- Go `float64` multiplication. -/
def fmul (a b : ℚ) : ℚ := roundDouble (a * b)

/-- Go `float64` division. -/
def fdiv (a b : ℚ) : ℚ := roundDouble (a / b)

/-- Go `int64(x)` for a `float64` value `x`: truncation toward zero
(all values converted by the duration code are far inside the `int64`
range, where this is Go's exact behaviour). -/
def ftrunc (q : ℚ) : Int := if q < 0 then -⌊-q⌋ else ⌊q⌋

/-- `int64(float64(f) * (float64(ratio) / scale))`: distribution of a
fractional component into the next finer unit. -/
def fracToInt (f ratio : Int) (scale : ℚ) : Int :=
  ftrunc (fmul (intToF f) (fdiv (intToF ratio) scale))

/-! ### Decimal scanner (`leadingNegative`, `leadingInt`,
`leadingFraction`) -/

/-- Numeric value of an ASCII digit character (`c - '0'`). -/
def dVal (c : Char) : Int := (c.toNat : Int) - 48

/-- Whether `c` is an ASCII digit (the loop guards
`c < '0' || c > '9'` negated). -/
def isDig (c : Char) : Bool :=
  decide (48 ≤ c.toNat) && decide (c.toNat ≤ 57)

/-- `leadingNegative`: consume an optional leading `+`/`-`, reporting
whether it was `-`. -/
def leadingNegative : List Char → Bool × List Char
  | [] => (false, [])
  | c :: rest =>
    if c = '-' then (true, rest)
    else if c = '+' then (false, rest)
    else (false, c :: rest)

/-- The digit loop of `leadingInt`: accumulate `x = x*10 + digit`
(an `int64` multiply-add, hence wrapping), guarding
`x > (1<<63-1)/10` before and `x < 0` after each step. -/
def leadingIntAux (x : Int) : List Char → Except DurErr (Int × List Char)
  | [] => .ok (x, [])
  | c :: rest =>
    if isDig c then
      if x > 922337203685477580 then .error .overflow
      else if wrap64 (x * 10 + dVal c) < 0 then .error .overflow
      else leadingIntAux (wrap64 (x * 10 + dVal c)) rest
    else .ok (x, c :: rest)

/-- `leadingInt`: consume the leading `[0-9]*` of `s`, failing with
overflow rather than wrapping. -/
def leadingInt (s : List Char) : Except DurErr (Int × List Char) :=
  leadingIntAux 0 s

/-- The digit loop of `leadingFraction`: like `leadingInt` but on
overflow it stops accumulating (value and scale freeze) while still
consuming digits.  `scale` is a `float64` multiplied by 10 per
accumulated digit. -/
def leadingFractionAux (x : Int) (scale : ℚ) (ovf : Bool) :
    List Char → Int × ℚ × List Char
  | [] => (x, scale, [])
  | c :: rest =>
    if isDig c then
      if ovf then leadingFractionAux x scale true rest
      else if x > 922337203685477580 then leadingFractionAux x scale true rest
      else if wrap64 (x * 10 + dVal c) < 0 then
        leadingFractionAux x scale true rest
      else leadingFractionAux (wrap64 (x * 10 + dVal c)) (fmul scale 10) false rest
    else (x, scale, c :: rest)

/-- `leadingFraction`: consume the leading `[0-9]*` of `s` as a
fraction value together with its base-10 scale. -/
def leadingFraction (s : List Char) : Int × ℚ × List Char :=
  leadingFractionAux 0 1 false s

/-! ### `ParseDuration` -/

/-- The `(state, unit letter)` dispatch of `ParseDuration`
(lines 402-437): apply one component to the duration being built, or
`none` for an unknown unit.  The integer part is added (Go `+=`, hence
wrapping) to the matching field; the fraction is converted into the
next finer unit via the integer ratio of the two unit constants scaled
by the fraction scale. -/
def applyUnit (afterT : Bool) (u : Char) (v f : Int) (scale : ℚ)
    (ret : Duration) : Option Duration :=
  if afterT = false then
    if u = 'Y' then
      some { ret with
        Years := wrap64 (ret.Years + v)
        Months := wrap64 (ret.Months + fracToInt f (yearC.tdiv monthC) scale) }
    else if u = 'M' then
      some { ret with
        Months := wrap64 (ret.Months + v)
        Weeks := wrap64 (ret.Weeks + fracToInt f (monthC.tdiv weekC) scale) }
    else if u = 'W' then
      some { ret with
        Weeks := wrap64 (ret.Weeks + v)
        Days := wrap64 (ret.Days + fracToInt f (weekC.tdiv dayC) scale) }
    else if u = 'D' then
      some { ret with
        Days := wrap64 (ret.Days + v)
        Hours := wrap64 (ret.Hours + fracToInt f (dayC.tdiv hourC) scale) }
    else none
  else
    if u = 'H' then
      some { ret with
        Hours := wrap64 (ret.Hours + v)
        Minutes := wrap64 (ret.Minutes + fracToInt f (hourC.tdiv minuteC) scale) }
    else if u = 'M' then
      some { ret with
        Minutes := wrap64 (ret.Minutes + v)
        Seconds := wrap64 (ret.Seconds + fracToInt f (minuteC.tdiv secondC) scale) }
    else if u = 'S' then
      some { ret with
        Seconds := wrap64 (ret.Seconds + v)
        Nanoseconds :=
          wrap64 (ret.Nanoseconds + fracToInt f (secondC.tdiv nanosecondC) scale) }
    else none

/-- The optional fractional part of one component
(`Consume (\.[0-9]*)?` of lines 379-388): on a leading `.` consume a
fraction, negating its value when the component sign was negative;
otherwise leave value 0, scale 1, `post = false`. -/
def fracPart (neg : Bool) : List Char → Int × ℚ × Bool × List Char
  | '.' :: s3 =>
    match leadingFraction s3 with
    | (f0, sc, s4) =>
      (if neg then -f0 else f0, sc, decide (s3.length ≠ s4.length), s4)
  | s2x => ((0 : Int), (1 : ℚ), false, s2x)

/-- One iteration of the component loop of `ParseDuration`
(`for s != ""`).  Returns `.ok none` when the loop terminates
(`s = ""`, yielding the accumulated duration), or the state, duration
and remaining input for the next iteration. -/
def parseIter (orig : String) (afterT : Bool) (ret : Duration) :
    List Char → Except DurErr (Option (Bool × Duration × List Char))
  | [] => .ok none
  | c :: rest =>
    if c = 'T' then .ok (some (true, ret, rest))
    else
      match leadingNegative (c :: rest) with
      | (neg, s1) =>
        match leadingInt s1 with
        | .error e => .error e
        | .ok (v0, s2) =>
          let pre : Bool := decide (s1.length ≠ s2.length)
          let v := if neg then -v0 else v0
          match fracPart neg s2 with
          | (f, scale, post, s4) =>
            if pre = false ∧ post = false then
              .error (.invalidDuration orig)
            else
              match s4 with
              | [] => .error (.invalidDuration orig)
              | u :: s5 =>
                match applyUnit afterT u v f scale ret with
                | none => .error (.invalidDuration orig)
                | some ret1 =>
                  if post = true ∧ s5 ≠ [] then
                    .error (.invalidDuration orig)
                  else .ok (some (afterT, ret1, s5))

/-- The component loop of `ParseDuration`: iterate `parseIter`.  `fuel`
is a structural-recursion bound; every iteration consumes at least one
character, so the initial `length + 1` never runs out. -/
def parseLoopGo (orig : String) :
    Nat → Bool → Duration → List Char → Except DurErr Duration
  | 0, _, _, _ => .error (.invalidDuration orig)
  | fuel + 1, afterT, ret, s =>
    match parseIter orig afterT ret s with
    | .error e => .error e
    | .ok none => .ok ret
    | .ok (some (t2, r2, s2)) => parseLoopGo orig fuel t2 r2 s2

/-- `ParseDuration`: optional leading sign, mandatory `P`, then the
component loop. -/
def ParseDuration (str : String) : Except DurErr Duration :=
  match leadingNegative str.toList with
  | (neg, s1) =>
    match s1 with
    | 'P' :: rest =>
      parseLoopGo str (rest.length + 1) false { Negative := neg } rest
    | _ => .error (.invalidDuration str)

/-! ### Specification-side helper definitions (used only in theorem
statements and proofs) -/

/-- Exact (unbounded) decimal value of a digit list under left-to-right
accumulation starting from `x`: the mathematical value `leadingInt`
computes when no overflow occurs. -/
def valGo (x : Int) : List Char → Int
  | [] => x
  | c :: cs => valGo (x * 10 + dVal c) cs

/-- The component loop with its canonical fuel (`length + 1` always
suffices because every iteration consumes at least one character). -/
def parseLoop (orig : String) (afterT : Bool) (ret : Duration)
    (s : List Char) : Except DurErr Duration :=
  parseLoopGo orig (s.length + 1) afterT ret s

/-- The decimal representation of `u` left-padded with `'0'` to exactly
`j` digits (requires `u < 10^j`); describes `appendFrac` output. -/
def padDigits : Nat → Nat → List Char
  | 0, _ => []
  | j + 1, u => padDigits j (u / 10) ++ [Nat.digitChar (u % 10)]

/-! ## Theorems -/

set_option maxRecDepth 1000000

theorem wrap64_eq_self {m : Int} (h1 : minInt64 ≤ m) (h2 : m ≤ maxInt64) :
    wrap64 m = m := by
  unfold wrap64
  unfold minInt64 at h1
  unfold maxInt64 at h2
  omega

theorem isDig_iff {c : Char} : isDig c = true ↔ 48 ≤ c.toNat ∧ c.toNat ≤ 57 := by
  simp [isDig]

theorem dVal_lb {c : Char} (h : isDig c = true) : 0 ≤ dVal c := by
  rw [isDig_iff] at h
  unfold dVal
  omega

theorem dVal_ub {c : Char} (h : isDig c = true) : dVal c ≤ 9 := by
  rw [isDig_iff] at h
  unfold dVal
  omega

theorem valGo_ge {ds : List Char} :
    ∀ {x : Int}, 0 ≤ x → (∀ c ∈ ds, isDig c = true) →
      x * 10 ^ ds.length ≤ valGo x ds ∧ 0 ≤ valGo x ds := by
  induction ds with
  | nil => intro x hx _; simp [valGo]; omega
  | cons c cs ih =>
    intro x hx hd
    have hdig : isDig c = true := hd c (List.mem_cons_self c cs)
    have hd0 : 0 ≤ dVal c := dVal_lb hdig
    have hx1 : 0 ≤ x * 10 + dVal c := by omega
    have h := ih hx1 (fun b hb => hd b (List.mem_cons_of_mem c hb))
    refine ⟨?_, ?_⟩
    · have hmul : x * 10 * 10 ^ cs.length ≤ (x * 10 + dVal c) * 10 ^ cs.length :=
        mul_le_mul_of_nonneg_right (by omega) (by positivity)
      calc x * 10 ^ (c :: cs).length
          = x * 10 * 10 ^ cs.length := by
            simp [List.length_cons, pow_succ]; ring
        _ ≤ (x * 10 + dVal c) * 10 ^ cs.length := hmul
        _ ≤ valGo (x * 10 + dVal c) cs := h.1
        _ = valGo x (c :: cs) := rfl
    · exact h.2

theorem valGo_le_self {ds : List Char} {x : Int} (hx : 0 ≤ x)
    (hd : ∀ c ∈ ds, isDig c = true) : x ≤ valGo x ds := by
  have h := (valGo_ge hx hd).1
  have hp : (0 : Int) < 10 ^ ds.length := pow_pos (by norm_num) _
  have h1 : x * 1 ≤ x * 10 ^ ds.length :=
    mul_le_mul_of_nonneg_left (by omega) hx
  omega

theorem leadingIntAux_append_ok {ds : List Char} :
    ∀ {x : Int} {rest : List Char},
      (∀ c ∈ ds, isDig c = true) →
      (∀ c, rest.head? = some c → isDig c = false) →
      0 ≤ x → valGo x ds ≤ maxInt64 →
      leadingIntAux x (ds ++ rest) = .ok (valGo x ds, rest) := by
  induction ds with
  | nil =>
    intro x rest _ hr _ _
    match rest with
    | [] => simp [leadingIntAux, valGo]
    | c :: rs =>
      have : isDig c = false := hr c rfl
      simp [leadingIntAux, this, valGo]
  | cons c cs ih =>
    intro x rest hd hr hx hb
    have hdig : isDig c = true := hd c (List.mem_cons_self c cs)
    have hd0 : 0 ≤ dVal c := dVal_lb hdig
    have hx1 : 0 ≤ x * 10 + dVal c := by omega
    have hcs : ∀ b ∈ cs, isDig b = true :=
      fun b hb2 => hd b (List.mem_cons_of_mem c hb2)
    have hvb : valGo x (c :: cs) = valGo (x * 10 + dVal c) cs := rfl
    rw [hvb] at hb
    have hle : x * 10 + dVal c ≤ maxInt64 :=
      le_trans (valGo_le_self hx1 hcs) hb
    have hK : ¬ x > 922337203685477580 := by
      unfold maxInt64 at hle; omega
    have hw : wrap64 (x * 10 + dVal c) = x * 10 + dVal c :=
      wrap64_eq_self (by unfold minInt64; omega) hle
    simp only [List.cons_append, leadingIntAux, hdig, if_true, if_neg hK, hw]
    rw [if_neg (show ¬ (x * 10 + dVal c < 0) from by omega)]
    show leadingIntAux (x * 10 + dVal c) (cs ++ rest) =
      .ok (valGo (x * 10 + dVal c) cs, rest)
    exact ih hcs hr hx1 hb

theorem leadingIntAux_append_err {ds : List Char} :
    ∀ {x : Int} {rest : List Char},
      (∀ c ∈ ds, isDig c = true) →
      0 ≤ x → x ≤ maxInt64 → maxInt64 < valGo x ds →
      leadingIntAux x (ds ++ rest) = .error .overflow := by
  induction ds with
  | nil =>
    intro x rest _ _ hxm hb
    exact absurd hb (by simp [valGo]; omega)
  | cons c cs ih =>
    intro x rest hd hx hxm hb
    have hdig : isDig c = true := hd c (List.mem_cons_self c cs)
    have hd0 : 0 ≤ dVal c := dVal_lb hdig
    have hd9 : dVal c ≤ 9 := dVal_ub hdig
    have hcs : ∀ b ∈ cs, isDig b = true :=
      fun b hb2 => hd b (List.mem_cons_of_mem c hb2)
    by_cases hK : x > 922337203685477580
    · simp [leadingIntAux, hdig, hK]
    · have hx1 : 0 ≤ x * 10 + dVal c := by omega
      by_cases hov : x * 10 + dVal c ≤ maxInt64
      · have hw : wrap64 (x * 10 + dVal c) = x * 10 + dVal c :=
          wrap64_eq_self (by unfold minInt64; omega) hov
        simp only [List.cons_append, leadingIntAux, hdig, if_true,
          if_neg hK, hw]
        rw [if_neg (show ¬ (x * 10 + dVal c < 0) from by omega)]
        show leadingIntAux (x * 10 + dVal c) (cs ++ rest) = .error .overflow
        exact ih hcs hx1 hov hb
      · have hny : wrap64 (x * 10 + dVal c) < 0 := by
          unfold wrap64
          unfold maxInt64 at hov
          omega
        simp [leadingIntAux, hdig, hK, hny]

theorem head_dropWhile_isDig_false :
    ∀ (l : List Char) c, (l.dropWhile isDig).head? = some c → isDig c = false := by
  intro l
  induction l with
  | nil => intro c h; simp [List.dropWhile] at h
  | cons a as ih =>
    intro c h
    rw [List.dropWhile_cons] at h
    by_cases ha : isDig a = true
    · rw [if_pos ha] at h; exact ih c h
    · rw [if_neg ha] at h
      simp at h
      subst h
      simpa using ha

/-- C3.  `leadingInt` never silently wraps: on success its value is the
exact decimal value of the consumed digit prefix (which therefore fits
in signed 64-bit range), and whenever the digit prefix's value exceeds
the maximum signed 64-bit value it fails with Overflow; in particular
`ParseDuration "P99999999999999999999Y"` fails with Overflow. -/
theorem c3_leading_int_overflow :
    (∀ (s : List Char) (x : Int) (rem : List Char),
        leadingInt s = .ok (x, rem) →
        x = valGo 0 (s.takeWhile isDig) ∧ rem = s.dropWhile isDig ∧
          0 ≤ x ∧ x ≤ maxInt64) ∧
    (∀ s : List Char, maxInt64 < valGo 0 (s.takeWhile isDig) →
        leadingInt s = .error .overflow) ∧
    ParseDuration "P99999999999999999999Y" = .error .overflow := by
  have hsplit : ∀ s : List Char, s = s.takeWhile isDig ++ s.dropWhile isDig :=
    fun s => (List.takeWhile_append_dropWhile (p := isDig) (l := s)).symm
  have htake : ∀ s : List Char, ∀ c ∈ s.takeWhile isDig, isDig c = true :=
    fun s c hc => List.mem_takeWhile_imp hc
  refine ⟨?_, ?_, by with_unfolding_all rfl⟩
  · intro s x rem hok
    by_cases hb : valGo 0 (s.takeWhile isDig) ≤ maxInt64
    · have h := @leadingIntAux_append_ok (s.takeWhile isDig) 0
        (s.dropWhile isDig) (htake s)
        (head_dropWhile_isDig_false s) le_rfl hb
      rw [← hsplit s] at h
      unfold leadingInt at hok
      rw [h] at hok
      have hx0 : 0 ≤ valGo 0 (s.takeWhile isDig) :=
        (valGo_ge le_rfl (htake s)).2
      cases hok
      exact ⟨rfl, rfl, hx0, hb⟩
    · have h := @leadingIntAux_append_err (s.takeWhile isDig) 0
        (s.dropWhile isDig) (htake s) le_rfl
        (by unfold maxInt64; omega) (by omega)
      rw [← hsplit s] at h
      unfold leadingInt at hok
      rw [h] at hok
      cases hok
  · intro s hb
    have h := @leadingIntAux_append_err (s.takeWhile isDig) 0
      (s.dropWhile isDig) (htake s) le_rfl
      (by unfold maxInt64; omega) hb
    rw [← hsplit s] at h
    unfold leadingInt
    exact h

/-- C3 witness: the general parts of the theorem instantiated at the
concrete inputs `"12a"` (exact success) and twenty nines (overflow). -/
theorem c3_leading_int_overflow_witness :
    ((12 : Int) = valGo 0 ((['1', '2', 'a']).takeWhile isDig) ∧
      ['a'] = (['1', '2', 'a']).dropWhile isDig ∧
      (0 : Int) ≤ 12 ∧ (12 : Int) ≤ maxInt64) ∧
    leadingInt
      (['9', '9', '9', '9', '9', '9', '9', '9', '9', '9',
        '9', '9', '9', '9', '9', '9', '9', '9', '9', '9']) =
      .error .overflow :=
  ⟨(c3_leading_int_overflow.1 ['1', '2', 'a'] 12 ['a'] (by decide)),
    c3_leading_int_overflow.2.1 _ (by decide)⟩

theorem leadingNegative_len {s r : List Char} {x : Bool}
    (h : leadingNegative s = (x, r)) : r.length ≤ s.length := by
  cases s with
  | nil =>
    simp only [leadingNegative] at h
    cases h
    exact le_rfl
  | cons c cs =>
    simp only [leadingNegative] at h
    by_cases h1 : c = '-'
    · rw [if_pos h1] at h
      cases h
      simp
    · rw [if_neg h1] at h
      by_cases h2 : c = '+'
      · rw [if_pos h2] at h
        cases h
        simp
      · rw [if_neg h2] at h
        cases h
        exact le_rfl

theorem leadingIntAux_len {s : List Char} :
    ∀ {x y : Int} {r : List Char},
      leadingIntAux x s = .ok (y, r) → r.length ≤ s.length := by
  induction s with
  | nil =>
    intro x y r h
    simp only [leadingIntAux] at h
    cases h
    exact le_rfl
  | cons c cs ih =>
    intro x y r h
    simp only [leadingIntAux] at h
    split at h
    · split at h
      · cases h
      · split at h
        · cases h
        · have := ih h
          simp only [List.length_cons]
          omega
    · cases h
      exact le_rfl

theorem leadingFractionAux_len {s : List Char} :
    ∀ {x : Int} {sc : ℚ} {ov : Bool} {y : Int} {sc2 : ℚ} {r : List Char},
      leadingFractionAux x sc ov s = (y, sc2, r) → r.length ≤ s.length := by
  induction s with
  | nil =>
    intro x sc ov y sc2 r h
    simp only [leadingFractionAux] at h
    cases h
    exact le_rfl
  | cons c cs ih =>
    intro x sc ov y sc2 r h
    simp only [leadingFractionAux] at h
    split at h
    · split at h
      · have := ih h; simp only [List.length_cons]; omega
      · split at h
        · have := ih h; simp only [List.length_cons]; omega
        · split at h
          · have := ih h; simp only [List.length_cons]; omega
          · have := ih h; simp only [List.length_cons]; omega
    · cases h
      exact le_rfl

theorem fracPart_len {neg : Bool} {s : List Char} {f : Int} {sc : ℚ}
    {post : Bool} {r : List Char} (h : fracPart neg s = (f, sc, post, r)) :
    r.length ≤ s.length := by
  unfold fracPart at h
  split at h
  · rename_i s3
    rcases hlf : leadingFraction s3 with ⟨f0, sc0, s4⟩
    rw [hlf] at h
    have := leadingFractionAux_len hlf
    cases h
    simp only [List.length_cons]
    omega
  · cases h
    exact le_rfl

theorem parseIter_some_len {orig : String} {t : Bool} {ret : Duration}
    {s : List Char} {t2 : Bool} {r2 : Duration} {s2 : List Char}
    (h : parseIter orig t ret s = .ok (some (t2, r2, s2))) :
    s2.length < s.length := by
  cases s with
  | nil => simp [parseIter] at h
  | cons c rest =>
    simp only [parseIter] at h
    split at h
    · cases h
      simp
    · rcases hln : leadingNegative (c :: rest) with ⟨neg, s1⟩
      rw [hln] at h
      dsimp only at h
      have hlen1 : s1.length ≤ (c :: rest).length := leadingNegative_len hln
      cases hli : leadingInt s1 with
      | error e => rw [hli] at h; cases h
      | ok p =>
        obtain ⟨v0, sB⟩ := p
        rw [hli] at h
        dsimp only at h
        have hlen2 : sB.length ≤ s1.length := leadingIntAux_len hli
        rcases hfp : fracPart neg sB with ⟨f, sc, post, s4⟩
        rw [hfp] at h
        dsimp only at h
        have hlen3 : s4.length ≤ sB.length := fracPart_len hfp
        split at h
        · cases h
        · cases s4 with
          | nil => cases h
          | cons u s5 =>
            dsimp only at h
            cases happ : applyUnit t u (if neg = true then -v0 else v0) f sc ret with
            | none => rw [happ] at h; cases h
            | some ret1 =>
              rw [happ] at h
              dsimp only at h
              by_cases hc : post = true ∧ s5 ≠ []
              · rw [if_pos hc] at h
                cases h
              · rw [if_neg hc] at h
                cases h
                simp only [List.length_cons] at *
                omega

theorem parseLoopGo_congr :
    ∀ (f1 : Nat) {f2 : Nat} {orig : String} {t : Bool} {ret : Duration}
      {s : List Char}, s.length < f1 → s.length < f2 →
      parseLoopGo orig f1 t ret s = parseLoopGo orig f2 t ret s := by
  intro f1
  induction f1 with
  | zero => intro f2 orig t ret s h1 h2; omega
  | succ f ih =>
    intro f2 orig t ret s h1 h2
    cases f2 with
    | zero => omega
    | succ g =>
      simp only [parseLoopGo]
      cases hit : parseIter orig t ret s with
      | error e => rfl
      | ok o =>
        cases o with
        | none => rfl
        | some p =>
          obtain ⟨t2, r2, s2⟩ := p
          have hlt := parseIter_some_len hit
          exact ih (by omega) (by omega)

theorem parseLoop_eq_go {orig : String} {t : Bool} {ret : Duration}
    {s : List Char} {f : Nat} (h : s.length < f) :
    parseLoop orig t ret s = parseLoopGo orig f t ret s :=
  parseLoopGo_congr (s.length + 1) (by omega) h

theorem parseLoop_nil {orig : String} {t : Bool} {ret : Duration} :
    parseLoop orig t ret [] = .ok ret := rfl

theorem parseLoop_iter_some {orig : String} {t : Bool} {ret : Duration}
    {s : List Char} {t2 : Bool} {r2 : Duration} {s2 : List Char}
    (h : parseIter orig t ret s = .ok (some (t2, r2, s2))) :
    parseLoop orig t ret s = parseLoop orig t2 r2 s2 := by
  have hlen := parseIter_some_len h
  calc parseLoop orig t ret s
      = parseLoopGo orig (s.length + 1) t ret s := rfl
    _ = parseLoopGo orig s.length t2 r2 s2 := by
        simp only [parseLoopGo]
        rw [h]
    _ = parseLoop orig t2 r2 s2 := (parseLoop_eq_go hlen).symm

theorem parseLoop_iter_error {orig : String} {t : Bool} {ret : Duration}
    {s : List Char} {e : DurErr}
    (h : parseIter orig t ret s = .error e) :
    parseLoop orig t ret s = .error e := by
  unfold parseLoop
  simp only [parseLoopGo]
  rw [h]

theorem ParseDuration_eq_loop {str : String} :
    ParseDuration str =
      match leadingNegative str.toList with
      | (neg, s1) =>
        match s1 with
        | 'P' :: rest => parseLoop str false { Negative := neg } rest
        | _ => .error (.invalidDuration str) := rfl

theorem isDig_not_special {d : Char} (h : isDig d = true) :
    d ≠ 'T' ∧ d ≠ '-' ∧ d ≠ '+' ∧ d ≠ '.' :=
  ⟨fun he => absurd (he ▸ h) (by decide),
    fun he => absurd (he ▸ h) (by decide),
    fun he => absurd (he ▸ h) (by decide),
    fun he => absurd (he ▸ h) (by decide)⟩

theorem fracPart_no_dot {neg : Bool} {u : Char} {rest : List Char}
    (hud : u ≠ '.') :
    fracPart neg (u :: rest) = (0, 1, false, u :: rest) := by
  unfold fracPart
  split
  · rename_i s3 heq
    exact absurd (by injection heq) hud
  · rfl

theorem leadingFractionAux_rem {fs : List Char} :
    ∀ {x : Int} {sc : ℚ} {ov : Bool} {rest : List Char},
      (∀ c ∈ fs, isDig c = true) →
      (∀ c, rest.head? = some c → isDig c = false) →
      ∃ y sc2, leadingFractionAux x sc ov (fs ++ rest) = (y, sc2, rest) := by
  induction fs with
  | nil =>
    intro x sc ov rest _ hr
    cases rest with
    | nil => exact ⟨x, sc, rfl⟩
    | cons c rs =>
      have : isDig c = false := hr c rfl
      exact ⟨x, sc, by simp [leadingFractionAux, this]⟩
  | cons c cs ih =>
    intro x sc ov rest hd hr
    have hdig : isDig c = true := hd c (List.mem_cons_self c cs)
    have hcs : ∀ b ∈ cs, isDig b = true :=
      fun b hb => hd b (List.mem_cons_of_mem c hb)
    simp only [List.cons_append, leadingFractionAux, hdig, if_true]
    by_cases hov : ov
    · subst hov
      simp only [if_true]
      exact ih hcs hr
    · simp only [Bool.not_eq_true] at hov
      subst hov
      rw [if_neg (by simp)]
      by_cases hK : x > 922337203685477580
      · rw [if_pos hK]
        exact ih hcs hr
      · rw [if_neg hK]
        by_cases hw : wrap64 (x * 10 + dVal c) < 0
        · rw [if_pos hw]
          exact ih hcs hr
        · rw [if_neg hw]
          exact ih hcs hr

theorem parseIter_intComp {orig : String} {t : Bool} {ret : Duration}
    {ds : List Char} {u : Char} {rest : List Char}
    (hds : ∀ c ∈ ds, isDig c = true) (hne : ds ≠ [])
    (hub : valGo 0 ds ≤ maxInt64)
    (hu : isDig u = false) (hud : u ≠ '.') :
    parseIter orig t ret (ds ++ u :: rest) =
      match applyUnit t u (valGo 0 ds) 0 1 ret with
      | none => .error (.invalidDuration orig)
      | some ret1 => .ok (some (t, ret1, rest)) := by
  cases ds with
  | nil => exact absurd rfl hne
  | cons d ds1 =>
    have hd : isDig d = true := hds d (List.mem_cons_self d ds1)
    obtain ⟨hdT, hdm, hdp, _⟩ := isDig_not_special hd
    have hun : ∀ c, (u :: rest).head? = some c → isDig c = false := by
      intro c hc
      simp at hc
      subst hc
      exact hu
    have hli : leadingInt (d :: (ds1 ++ u :: rest)) =
        .ok (valGo 0 (d :: ds1), u :: rest) :=
      leadingIntAux_append_ok hds hun le_rfl hub
    have hlen : (d :: (ds1 ++ u :: rest)).length ≠ (u :: rest).length := by
      simp
      omega
    simp only [List.cons_append, parseIter, if_neg hdT]
    rw [show leadingNegative (d :: (ds1 ++ u :: rest)) =
      (false, d :: (ds1 ++ u :: rest)) from by
        simp [leadingNegative, hdm, hdp]]
    dsimp only
    rw [hli]
    dsimp only
    rw [fracPart_no_dot hud]
    dsimp only
    rw [if_neg (by simp; omega)]
    cases happ : applyUnit t u (valGo 0 (d :: ds1)) 0 1 ret with
    | none =>
      rw [show (if false = true then -valGo 0 (d :: ds1) else valGo 0 (d :: ds1)) =
        valGo 0 (d :: ds1) from by simp]
      rw [happ]
    | some ret1 =>
      rw [show (if false = true then -valGo 0 (d :: ds1) else valGo 0 (d :: ds1)) =
        valGo 0 (d :: ds1) from by simp]
      rw [happ]
      dsimp only
      rw [if_neg (by simp)]

theorem parseLoop_intComp {orig : String} {t : Bool} {ret ret1 : Duration}
    {ds : List Char} {u : Char} {rest : List Char}
    (hds : ∀ c ∈ ds, isDig c = true) (hne : ds ≠ [])
    (hub : valGo 0 ds ≤ maxInt64)
    (hu : isDig u = false) (hud : u ≠ '.')
    (happ : applyUnit t u (valGo 0 ds) 0 1 ret = some ret1) :
    parseLoop orig t ret (ds ++ u :: rest) = parseLoop orig t ret1 rest := by
  apply parseLoop_iter_some
  rw [parseIter_intComp hds hne hub hu hud, happ]

theorem parseLoop_intComp_illegal {orig : String} {t : Bool} {ret : Duration}
    {ds : List Char} {u : Char} {rest : List Char}
    (hds : ∀ c ∈ ds, isDig c = true) (hne : ds ≠ [])
    (hub : valGo 0 ds ≤ maxInt64)
    (hu : isDig u = false) (hud : u ≠ '.')
    (happ : applyUnit t u (valGo 0 ds) 0 1 ret = none) :
    parseLoop orig t ret (ds ++ u :: rest) = .error (.invalidDuration orig) := by
  apply parseLoop_iter_error
  rw [parseIter_intComp hds hne hub hu hud, happ]

theorem applyUnit_none_before {u : Char} {v f : Int} {sc : ℚ} {ret : Duration}
    (n1 : u ≠ 'Y') (n2 : u ≠ 'M') (n3 : u ≠ 'W') (n4 : u ≠ 'D') :
    applyUnit false u v f sc ret = none := by
  unfold applyUnit
  rw [if_pos rfl, if_neg n1, if_neg n2, if_neg n3, if_neg n4]

theorem applyUnit_none_after {u : Char} {v f : Int} {sc : ℚ} {ret : Duration}
    (n1 : u ≠ 'H') (n2 : u ≠ 'M') (n3 : u ≠ 'S') :
    applyUnit true u v f sc ret = none := by
  unfold applyUnit
  rw [if_neg (by simp), if_neg n1, if_neg n2, if_neg n3]

theorem fracPart_dot_eq {neg : Bool} {s3 : List Char} {f0 : Int} {sc : ℚ}
    {s4 : List Char} (h : leadingFraction s3 = (f0, sc, s4)) :
    fracPart neg ('.' :: s3) =
      (if neg = true then -f0 else f0, sc,
        decide (s3.length ≠ s4.length), s4) := by
  simp only [fracPart]
  rw [show leadingFraction s3 = (f0, sc, s4) from h]

theorem parseIter_fracTrailing {orig : String} {t : Bool} {ret : Duration}
    {ds fs : List Char} {u : Char} {rest : List Char}
    (hds : ∀ c ∈ ds, isDig c = true) (hfs : ∀ c ∈ fs, isDig c = true)
    (hfne : fs ≠ []) (hub : valGo 0 ds ≤ maxInt64)
    (hu : isDig u = false) (hrest : rest ≠ []) :
    parseIter orig t ret (ds ++ '.' :: (fs ++ u :: rest)) =
      .error (.invalidDuration orig) := by
  have hun : ∀ c, (u :: rest).head? = some c → isDig c = false := by
    intro c hc
    simp only [List.head?_cons, Option.some.injEq] at hc
    subst hc
    exact hu
  obtain ⟨y, sc2, hlf⟩ :=
    @leadingFractionAux_rem fs 0 1 false (u :: rest) hfs hun
  have hpost : decide ((fs ++ u :: rest).length ≠ (u :: rest).length) = true := by
    cases fs with
    | nil => exact absurd rfl hfne
    | cons a as => simp; omega
  have hfp : ∀ neg : Bool, fracPart neg ('.' :: (fs ++ u :: rest)) =
      (if neg = true then -y else y, sc2, true, u :: rest) := by
    intro neg
    rw [fracPart_dot_eq hlf, hpost]
  have hdotun : ∀ c, ('.' :: (fs ++ u :: rest)).head? = some c →
      isDig c = false := by
    intro c hc
    simp only [List.head?_cons, Option.some.injEq] at hc
    subst hc
    decide
  cases ds with
  | nil =>
    have hli : leadingInt ('.' :: (fs ++ u :: rest)) =
        .ok (0, '.' :: (fs ++ u :: rest)) :=
      @leadingIntAux_append_ok [] 0 ('.' :: (fs ++ u :: rest))
        (fun c hc => absurd hc (by simp))
        hdotun le_rfl (by unfold valGo maxInt64; omega)
    simp only [List.nil_append, parseIter]
    rw [if_neg (by decide : ¬('.' = 'T'))]
    rw [show leadingNegative ('.' :: (fs ++ u :: rest)) =
      (false, '.' :: (fs ++ u :: rest)) from by
        simp [leadingNegative]]
    dsimp only
    rw [hli]
    dsimp only
    rw [hfp false]
    dsimp only
    rw [if_neg (by simp)]
    cases happ : applyUnit t u (if false = true then -(0 : Int) else 0)
        (if false = true then -y else y) sc2 ret with
    | none => rfl
    | some ret1 =>
      dsimp only
      rw [if_pos ⟨rfl, hrest⟩]
  | cons d ds1 =>
    have hd : isDig d = true := hds d (List.mem_cons_self d ds1)
    obtain ⟨hdT, hdm, hdp, _⟩ := isDig_not_special hd
    have hli : leadingInt (d :: (ds1 ++ '.' :: (fs ++ u :: rest))) =
        .ok (valGo 0 (d :: ds1), '.' :: (fs ++ u :: rest)) :=
      leadingIntAux_append_ok hds hdotun le_rfl hub
    simp only [List.cons_append, parseIter, if_neg hdT]
    rw [show leadingNegative (d :: (ds1 ++ '.' :: (fs ++ u :: rest))) =
      (false, d :: (ds1 ++ '.' :: (fs ++ u :: rest))) from by
        simp [leadingNegative, hdm, hdp]]
    dsimp only
    rw [hli]
    dsimp only
    rw [hfp false]
    dsimp only
    rw [if_neg (by simp)]
    cases happ : applyUnit t u
        (if false = true then -valGo 0 (d :: ds1) else valGo 0 (d :: ds1))
        (if false = true then -y else y) sc2 ret with
    | none => rfl
    | some ret1 =>
      dsimp only
      rw [if_pos ⟨rfl, hrest⟩]

theorem parseLoop_fracTrailing {orig : String} {t : Bool} {ret : Duration}
    {ds fs : List Char} {u : Char} {rest : List Char}
    (hds : ∀ c ∈ ds, isDig c = true) (hfs : ∀ c ∈ fs, isDig c = true)
    (hfne : fs ≠ []) (hub : valGo 0 ds ≤ maxInt64)
    (hu : isDig u = false) (hrest : rest ≠ []) :
    parseLoop orig t ret (ds ++ '.' :: (fs ++ u :: rest)) =
      .error (.invalidDuration orig) :=
  parseLoop_iter_error
    (parseIter_fracTrailing hds hfs hfne hub hu hrest)

/-- C5.  Exactly the seven (state, unit letter) pairs are accepted:
whenever the unit dispatch succeeds the pair is one of before-time
`{Y,M,W,D}` or after-time `{H,M,S}`; any other letter (or a letter in
the wrong state) at the end of an otherwise well-formed integer
component makes the loop fail with InvalidDuration carrying the
original input; in particular `P1S` and `PT1Y` fail with
InvalidDuration carrying the full input text. -/
theorem c5_seven_legal_pairs :
    (∀ (t : Bool) (u : Char) (v f : Int) (sc : ℚ) (ret : Duration),
        (applyUnit t u v f sc ret).isSome = true →
        (t = false ∧ (u = 'Y' ∨ u = 'M' ∨ u = 'W' ∨ u = 'D')) ∨
          (t = true ∧ (u = 'H' ∨ u = 'M' ∨ u = 'S'))) ∧
    (∀ (orig : String) (t : Bool) (ret : Duration) (ds : List Char)
        (u : Char) (rest : List Char),
        (∀ c ∈ ds, isDig c = true) → ds ≠ [] → valGo 0 ds ≤ maxInt64 →
        isDig u = false → u ≠ '.' →
        (t = false → ¬(u = 'Y' ∨ u = 'M' ∨ u = 'W' ∨ u = 'D')) →
        (t = true → ¬(u = 'H' ∨ u = 'M' ∨ u = 'S')) →
        parseLoop orig t ret (ds ++ u :: rest) =
          .error (.invalidDuration orig)) ∧
    ParseDuration "P1S" = .error (.invalidDuration "P1S") ∧
    ParseDuration "PT1Y" = .error (.invalidDuration "PT1Y") := by
  refine ⟨?_, ?_, by with_unfolding_all rfl, by with_unfolding_all rfl⟩
  · intro t u v f sc ret h
    cases t
    · left
      refine ⟨rfl, ?_⟩
      by_contra hcon
      push_neg at hcon
      obtain ⟨n1, n2, n3, n4⟩ := hcon
      rw [applyUnit_none_before n1 n2 n3 n4] at h
      cases h
    · right
      refine ⟨rfl, ?_⟩
      by_contra hcon
      push_neg at hcon
      obtain ⟨n1, n2, n3⟩ := hcon
      rw [applyUnit_none_after n1 n2 n3] at h
      cases h
  · intro orig t ret ds u rest hds hne hub hu hud hbad1 hbad2
    apply parseLoop_intComp_illegal hds hne hub hu hud
    cases t
    · have := hbad1 rfl
      push_neg at this
      exact applyUnit_none_before this.1 this.2.1 this.2.2.1 this.2.2.2
    · have := hbad2 rfl
      push_neg at this
      exact applyUnit_none_after this.1 this.2.1 this.2.2

/-- C5 witness: the dispatch characterisation applied at the legal pair
`(before-time, Y)`, and the wrong-state rejection applied at input
`1W` in the after-time state. -/
theorem c5_seven_legal_pairs_witness :
    ((false = false ∧ ('Y' = 'Y' ∨ 'Y' = 'M' ∨ 'Y' = 'W' ∨ 'Y' = 'D')) ∨
      (false = true ∧ ('Y' = 'H' ∨ 'Y' = 'M' ∨ 'Y' = 'S'))) ∧
    parseLoop "w" true {} (['1'] ++ 'W' :: []) =
      .error (.invalidDuration "w") :=
  ⟨c5_seven_legal_pairs.1 false 'Y' 1 0 1 {} (by with_unfolding_all rfl),
    c5_seven_legal_pairs.2.1 "w" true {} ['1'] 'W' [] (by decide) (by decide)
      (by decide) (by decide) (by decide) (by decide) (by decide)⟩

/-- C7.  A fraction is only legal on the last component: whenever a
component carries a fractional part and anything at all follows its
unit letter, the parse loop fails with InvalidDuration carrying the
original input; in particular `P1.5D2H` and `P1.5DT1H` fail with
InvalidDuration. -/
theorem c7_fraction_must_be_last :
    (∀ (orig : String) (t : Bool) (ret : Duration) (ds fs : List Char)
        (u : Char) (rest : List Char),
        (∀ c ∈ ds, isDig c = true) → (∀ c ∈ fs, isDig c = true) →
        fs ≠ [] → valGo 0 ds ≤ maxInt64 → isDig u = false → rest ≠ [] →
        parseLoop orig t ret (ds ++ '.' :: (fs ++ u :: rest)) =
          .error (.invalidDuration orig)) ∧
    ParseDuration "P1.5D2H" = .error (.invalidDuration "P1.5D2H") ∧
    ParseDuration "P1.5DT1H" = .error (.invalidDuration "P1.5DT1H") := by
  refine ⟨?_, by with_unfolding_all rfl, by with_unfolding_all rfl⟩
  intro orig t ret ds fs u rest hds hfs hfne hub hu hrest
  exact parseLoop_fracTrailing hds hfs hfne hub hu hrest

/-- C7 witness: the general statement applied at the concrete component
`1.5D` followed by `2H` in the before-time state. -/
theorem c7_fraction_must_be_last_witness :
    parseLoop "w" false {} (['1'] ++ '.' :: (['5'] ++ 'D' :: ['2', 'H'])) =
      .error (.invalidDuration "w") :=
  c7_fraction_must_be_last.1 "w" false {} ['1'] ['5'] 'D' ['2', 'H']
    (by decide) (by decide) (by decide) (by decide) (by decide) (by decide)

theorem minInt64_tdiv_nonpos {u : Int} (hu : 0 < u) : minInt64.tdiv u ≤ 0 := by
  rw [show minInt64 = -(9223372036854775808 : Int) from rfl, Int.neg_tdiv]
  have := Int.tdiv_nonneg (show (0 : Int) ≤ 9223372036854775808 by omega) hu.le
  omega

theorem addNano_zero {b u : Int} (hu : 0 < u) (hb0 : 0 ≤ b)
    (hbm : b ≤ maxInt64) : addNano b 0 u = .ok b := by
  unfold addNano multiplyInt
  have h1 : 0 ≤ maxInt64.tdiv u :=
    Int.tdiv_nonneg (by unfold maxInt64; omega) hu.le
  have h2 : minInt64.tdiv u ≤ 0 := minInt64_tdiv_nonpos hu
  rw [if_pos hu, if_neg (by omega)]
  dsimp only
  rw [mul_zero]
  unfold addInt
  by_cases hb : b > 0
  · rw [if_pos hb, if_neg (by unfold maxInt64 minInt64 at *; omega),
      add_zero]
  · rw [if_neg hb, if_neg (by unfold maxInt64 minInt64 at *; omega),
      add_zero]

theorem addNano_eval {b num u : Int} (hu : 0 < u) (hnum : 0 ≤ num)
    (hb0 : 0 ≤ b) (hle : b + u * num ≤ maxInt64) :
    addNano b num u = .ok (b + u * num) := by
  have hv : 0 ≤ u * num := mul_nonneg hu.le hnum
  have hmaxe : maxInt64 = 9223372036854775807 := rfl
  have hmine : minInt64 = -9223372036854775808 := rfl
  unfold addNano multiplyInt
  have hknum : num ≤ maxInt64.tdiv u := by
    rw [Int.tdiv_eq_ediv (by omega) hu.le, Int.le_ediv_iff_mul_le hu,
      mul_comm]
    omega
  have h2 : minInt64.tdiv u ≤ 0 := minInt64_tdiv_nonpos hu
  rw [if_pos hu, if_neg (by omega)]
  dsimp only
  unfold addInt
  by_cases hb : b > 0
  · rw [if_pos hb, if_neg (by omega)]
  · rw [if_neg hb, if_neg (by omega)]

/-- C10.  For every nanosecond count `n` with `-2^63 < n ≤ 2^63 - 1`,
`NewDuration` followed by `TimeDuration` is an exact round-trip
returning `n` with no error, and the intermediate Duration has no
calendar fields, `Negative` true iff `n < 0`, non-negative hours, and
minutes, seconds and nanoseconds in their canonical ranges. -/
theorem c10_fixed_length_roundtrip (n : Int)
    (hlo : minInt64 < n) (hhi : n ≤ maxInt64) :
    (NewDuration n).TimeDuration = .ok n ∧
    (NewDuration n).Years = 0 ∧ (NewDuration n).Months = 0 ∧
    (NewDuration n).Weeks = 0 ∧ (NewDuration n).Days = 0 ∧
    ((NewDuration n).Negative = true ↔ n < 0) ∧
    0 ≤ (NewDuration n).Hours ∧
    0 ≤ (NewDuration n).Minutes ∧ (NewDuration n).Minutes < 60 ∧
    0 ≤ (NewDuration n).Seconds ∧ (NewDuration n).Seconds < 60 ∧
    0 ≤ (NewDuration n).Nanoseconds ∧
    (NewDuration n).Nanoseconds < 1000000000 := by
  have hmaxe : maxInt64 = 9223372036854775807 := rfl
  have hmine : minInt64 = -9223372036854775808 := rfl
  have habs0 : 0 ≤ |n| := abs_nonneg n
  have habsmax : |n| ≤ 9223372036854775807 := by
    rw [abs_le]
    omega
  have hhourpos : (0 : Int) < hourC := by decide
  have hminpos : (0 : Int) < minuteC := by decide
  have hsecpos : (0 : Int) < secondC := by decide
  have hhourC : hourC = 3600000000000 := by decide
  have hminC : minuteC = 60000000000 := by decide
  have hsecC : secondC = 1000000000 := by decide
  have hwv : (if n < 0 then wrap64 (-n) else n) = |n| := by
    by_cases hn : n < 0
    · rw [if_pos hn, wrap64_eq_self (by omega) (by omega)]
      exact (abs_of_neg hn).symm
    · rw [if_neg hn]
      exact (abs_of_nonneg (by omega)).symm
  have hY : (NewDuration n).Years = 0 := rfl
  have hMo : (NewDuration n).Months = 0 := rfl
  have hW : (NewDuration n).Weeks = 0 := rfl
  have hD : (NewDuration n).Days = 0 := rfl
  have hNeg : (NewDuration n).Negative = decide (n < 0) := rfl
  have hH : (NewDuration n).Hours = |n| / 3600000000000 := by
    show (if n < 0 then wrap64 (-n) else n).tdiv hourC = _
    rw [hwv, Int.tdiv_eq_ediv habs0 hhourpos.le, hhourC]
  have hMin : (NewDuration n).Minutes =
      |n| % 3600000000000 / 60000000000 := by
    show ((if n < 0 then wrap64 (-n) else n).tmod hourC).tdiv minuteC = _
    rw [hwv, Int.tmod_eq_emod habs0 hhourpos.le,
      Int.tdiv_eq_ediv (Int.emod_nonneg _ (ne_of_gt hhourpos)) hminpos.le,
      hhourC, hminC]
  have hS : (NewDuration n).Seconds =
      |n| % 3600000000000 % 60000000000 / 1000000000 := by
    show (((if n < 0 then wrap64 (-n) else n).tmod hourC).tmod
      minuteC).tdiv secondC = _
    rw [hwv, Int.tmod_eq_emod habs0 hhourpos.le,
      Int.tmod_eq_emod (Int.emod_nonneg _ (ne_of_gt hhourpos)) hminpos.le,
      Int.tdiv_eq_ediv
        (Int.emod_nonneg _ (ne_of_gt hminpos)) hsecpos.le,
      hhourC, hminC, hsecC]
  have hNs : (NewDuration n).Nanoseconds =
      |n| % 3600000000000 % 60000000000 % 1000000000 := by
    show (((if n < 0 then wrap64 (-n) else n).tmod hourC).tmod
      minuteC).tmod secondC = _
    rw [hwv, Int.tmod_eq_emod habs0 hhourpos.le,
      Int.tmod_eq_emod (Int.emod_nonneg _ (ne_of_gt hhourpos)) hminpos.le,
      Int.tmod_eq_emod (Int.emod_nonneg _ (ne_of_gt hminpos)) hsecpos.le,
      hhourC, hminC, hsecC]
  have hTD : (NewDuration n).TimeDuration = .ok n := by
    unfold Duration.TimeDuration
    rw [hY, addNano_zero (by decide) le_rfl (by rw [hmaxe]; omega)]
    dsimp only
    rw [hMo, addNano_zero (by decide) le_rfl (by rw [hmaxe]; omega)]
    dsimp only
    rw [hW, addNano_zero (by decide) le_rfl (by rw [hmaxe]; omega)]
    dsimp only
    rw [hD, addNano_zero (by decide) le_rfl (by rw [hmaxe]; omega)]
    dsimp only
    rw [hH, addNano_eval hhourpos (by omega) le_rfl
      (by rw [hmaxe, hhourC]; omega)]
    dsimp only
    rw [hMin, addNano_eval hminpos (by omega)
      (by rw [hhourC]; omega)
      (by rw [hmaxe, hhourC, hminC]; omega)]
    dsimp only
    rw [hS, addNano_eval hsecpos (by omega)
      (by rw [hhourC, hminC]; omega)
      (by rw [hmaxe, hhourC, hminC, hsecC]; omega)]
    dsimp only
    rw [hNs, addNano_eval (show (0 : Int) < nanosecondC by decide)
      (by omega)
      (by rw [hhourC, hminC, hsecC]; omega)
      (by rw [hmaxe, hhourC, hminC, hsecC]
          show _ + (1 : Int) * _ ≤ _
          omega)]
    dsimp only
    rw [hNeg]
    rw [show (0 : Int) + hourC * (|n| / 3600000000000) +
        minuteC * (|n| % 3600000000000 / 60000000000) +
        secondC * (|n| % 3600000000000 % 60000000000 / 1000000000) +
        nanosecondC * (|n| % 3600000000000 % 60000000000 % 1000000000) =
        |n| from by
      rw [hhourC, hminC, hsecC,
        show nanosecondC = (1 : Int) from by decide]
      omega]
    by_cases hn : n < 0
    · rw [if_pos (by simpa using hn), abs_of_neg hn, neg_neg]
    · rw [if_neg (by simpa using hn), abs_of_nonneg (by omega)]
  refine ⟨hTD, hY, hMo, hW, hD, ?_, ?_, ?_, ?_, ?_, ?_, ?_, ?_⟩
  · rw [hNeg]; simp
  · rw [hH]; omega
  · rw [hMin]; omega
  · rw [hMin]; omega
  · rw [hS]; omega
  · rw [hS]; omega
  · rw [hNs]; omega
  · rw [hNs]; omega

/-- C10 witness: the round-trip theorem applied at the concrete
nanosecond count `-5400000000000` (minus ninety minutes). -/
theorem c10_fixed_length_roundtrip_witness :
    (NewDuration (-5400000000000)).TimeDuration = .ok (-5400000000000) ∧
      (NewDuration (-5400000000000)).Negative = true :=
  ⟨(c10_fixed_length_roundtrip (-5400000000000) (by decide) (by decide)).1,
    by
      have h :=
        (c10_fixed_length_roundtrip (-5400000000000) (by decide)
          (by decide)).2.2.2.2.2.1
      exact h.mpr (by decide)⟩

/-- C1.  The specification requires mixed-sign borrowing, rendering the
Duration with `Seconds=0, Nanoseconds=-500000000` as `PT-0.5S`; the
code instead decrements the `uint64` seconds magnitude `v = 0`, which
underflows to `2^64 - 1`, so the rendered text is
`PT18446744073709551615.5S`.  This theorem evaluates the embedded
formatter at that failing input. -/
theorem c1_format_seconds_borrow_underflow :
    ({ Nanoseconds := -500000000 } : Duration).String =
      "PT18446744073709551615.5S" := by
  with_unfolding_all rfl

/-- C2.  The specification requires accumulation into a Duration field
to fail with Overflow on exceeding the signed 64-bit range; the code
accumulates with an unchecked Go `+=`, so `P9223372036854775807Y1Y`
silently wraps `Years` to `minInt64` and parsing succeeds.  This
theorem evaluates the embedded parser at that failing input. -/
theorem c2_field_accumulation_wraps :
    ParseDuration "P9223372036854775807Y1Y" =
      .ok { Years := -9223372036854775808 } := by
  with_unfolding_all rfl

/-- C4.  `ParseDuration "P"` and `ParseDuration "PT"` both succeed with
the all-zero, non-negative Duration, and formatting the all-zero
Duration yields exactly `P0D`. -/
theorem c4_zero_forms :
    ParseDuration "P" = .ok {} ∧ ParseDuration "PT" = .ok {} ∧
      ({} : Duration).String = "P0D" := by
  refine ⟨?_, ?_, ?_⟩ <;> with_unfolding_all rfl

/-- C6.  A fractional component is distributed into the next finer unit
by the ratio of the two unit constants scaled by the fraction scale:
`P1.5D` yields days=1, hours=12; likewise `PT0.5M` yields 30 seconds
and `PT1.5S` yields 1 second and 500000000 nanoseconds. -/
theorem c6_fraction_cascades_to_finer_unit :
    ParseDuration "P1.5D" = .ok { Days := 1, Hours := 12 } ∧
      ParseDuration "PT0.5M" = .ok { Seconds := 30 } ∧
      ParseDuration "PT1.5S" = .ok { Seconds := 1, Nanoseconds := 500000000 } := by
  refine ⟨?_, ?_, ?_⟩ <;> with_unfolding_all rfl

/-- C9 counterexample.  The claim says `P1D1Y` (units out of canonical
order before the time designator) is rejected with InvalidDuration; the
parser in fact accepts it, returning years=1, days=1. -/
theorem c9_out_of_order_accepted_cex :
    ParseDuration "P1D1Y" = .ok { Years := 1, Days := 1 } := by
  with_unfolding_all rfl

/-- C9 amended.  The parser does not enforce unit ordering within a
segment: the state only gates which letters are legal, so units may
repeat or appear out of canonical order and are simply accumulated;
`P1D1Y` parses to years=1, days=1 and `PT1S1H` parses to hours=1,
seconds=1. -/
theorem c9_order_not_enforced :
    ParseDuration "P1D1Y" = .ok { Years := 1, Days := 1 } ∧
      ParseDuration "PT1S1H" = .ok { Hours := 1, Seconds := 1 } := by
  exact ⟨by with_unfolding_all rfl, by with_unfolding_all rfl⟩

theorem digitChar_isDig {d : Nat} (h : d < 10) :
    isDig (Nat.digitChar d) = true := by
  interval_cases d <;> decide

theorem digitChar_dVal {d : Nat} (h : d < 10) :
    dVal (Nat.digitChar d) = (d : Int) := by
  interval_cases d <;> decide

theorem valGo_append_one {xs : List Char} :
    ∀ {x : Int} {c : Char},
      valGo x (xs ++ [c]) = 10 * valGo x xs + dVal c := by
  induction xs with
  | nil =>
    intro x c
    simp only [List.nil_append, valGo]
    ring
  | cons a as ih =>
    intro x c
    simp only [List.cons_append, valGo]
    exact ih

theorem natDigitsGo_spec :
    ∀ (f n : Nat), n < 10 ^ f → 0 < f →
      (∀ c ∈ natDigitsGo f n, isDig c = true) ∧
      valGo 0 (natDigitsGo f n) = (n : Int) ∧ natDigitsGo f n ≠ [] := by
  intro f
  induction f with
  | zero => intro n _ h0; omega
  | succ k ih =>
    intro n hn _
    by_cases hsmall : n < 10
    · refine ⟨?_, ?_, ?_⟩
      · intro c hc
        simp only [natDigitsGo, if_pos hsmall, List.mem_singleton] at hc
        subst hc
        exact digitChar_isDig hsmall
      · simp only [natDigitsGo, if_pos hsmall, valGo]
        rw [digitChar_dVal hsmall]
        ring
      · simp [natDigitsGo, if_pos hsmall]
    · have hk0 : 0 < k := by
        rcases Nat.eq_zero_or_pos k with hk | hk
        · subst hk
          simp at hn
          omega
        · exact hk
      have hdiv : n / 10 < 10 ^ k := by
        rw [Nat.div_lt_iff_lt_mul (by norm_num)]
        calc n < 10 ^ (k + 1) := hn
          _ = 10 ^ k * 10 := by rw [pow_succ]
      obtain ⟨ih1, ih2, ih3⟩ := ih (n / 10) hdiv hk0
      have hmod : n % 10 < 10 := Nat.mod_lt n (by norm_num)
      refine ⟨?_, ?_, ?_⟩
      · intro c hc
        simp only [natDigitsGo, if_neg hsmall, List.mem_append,
          List.mem_singleton] at hc
        rcases hc with hc | hc
        · exact ih1 c hc
        · subst hc
          exact digitChar_isDig hmod
      · simp only [natDigitsGo, if_neg hsmall]
        rw [valGo_append_one, ih2, digitChar_dVal hmod]
        push_cast
        omega
      · simp [natDigitsGo, if_neg hsmall]
  
theorem natDigits_spec {n : Nat} (h : n < 10 ^ 64) :
    (∀ c ∈ natDigits n, isDig c = true) ∧
      valGo 0 (natDigits n) = (n : Int) ∧ natDigits n ≠ [] :=
  natDigitsGo_spec 64 n h (by norm_num)

theorem toNat_lt_pow64 {v : Int} (h1 : 0 ≤ v) (h2 : v ≤ maxInt64) :
    v.toNat < 10 ^ 64 := by
  unfold maxInt64 at h2
  have : v.toNat ≤ 9223372036854775807 := by omega
  calc v.toNat ≤ 9223372036854775807 := this
    _ < 10 ^ 64 := by norm_num

theorem intToChars_of_nonneg {v : Int} (h : 0 ≤ v) :
    intToChars v = natDigits v.toNat := by
  unfold intToChars
  rw [if_neg (by omega)]

theorem padDigits_allDig : ∀ (j u : Nat), ∀ c ∈ padDigits j u, isDig c = true := by
  intro j
  induction j with
  | zero => intro u c hc; simp [padDigits] at hc
  | succ k ih =>
    intro u c hc
    simp only [padDigits, List.mem_append, List.mem_singleton] at hc
    rcases hc with hc | hc
    · exact ih (u / 10) c hc
    · subst hc
      exact digitChar_isDig (Nat.mod_lt u (by norm_num))

theorem padDigits_len : ∀ (j u : Nat), (padDigits j u).length = j := by
  intro j
  induction j with
  | zero => intro u; rfl
  | succ k ih =>
    intro u
    simp [padDigits, ih]

theorem padDigits_ne_nil {j u : Nat} (h : 0 < j) : padDigits j u ≠ [] := by
  intro hc
  have := padDigits_len j u
  rw [hc] at this
  simp at this
  omega

theorem padDigits_val : ∀ (j u : Nat), u < 10 ^ j →
    valGo 0 (padDigits j u) = (u : Int) := by
  intro j
  induction j with
  | zero =>
    intro u hu
    interval_cases u
    rfl
  | succ k ih =>
    intro u hu
    have hdiv : u / 10 < 10 ^ k := by
      rw [Nat.div_lt_iff_lt_mul (by norm_num)]
      calc u < 10 ^ (k + 1) := hu
        _ = 10 ^ k * 10 := by rw [pow_succ]
    simp only [padDigits]
    rw [valGo_append_one, ih (u / 10) hdiv,
      digitChar_dVal (Nat.mod_lt u (by norm_num))]
    push_cast
    omega

theorem mod_pow_div_ten {v p : Nat} :
    v % 10 ^ (p + 1) / 10 = v / 10 % 10 ^ p := by
  rw [pow_succ']
  exact Nat.mod_mul_right_div_self v 10 (10 ^ p)

theorem mod_pow_mod_ten {v p : Nat} : v % 10 ^ (p + 1) % 10 = v % 10 := by
  exact Nat.mod_mod_of_dvd v ⟨10 ^ p, by rw [pow_succ']⟩

theorem appendFracGo_true : ∀ (p v : Nat) (acc : List Char),
    appendFracGo p v true acc = (padDigits p (v % 10 ^ p) ++ acc, true) := by
  intro p
  induction p with
  | zero => intro v acc; simp [appendFracGo, padDigits]
  | succ k ih =>
    intro v acc
    simp only [appendFracGo, Bool.true_or, if_true]
    rw [ih (v / 10) (Nat.digitChar (v % 10) :: acc)]
    have h1 : padDigits (k + 1) (v % 10 ^ (k + 1)) =
        padDigits k (v / 10 % 10 ^ k) ++ [Nat.digitChar (v % 10)] := by
      simp only [padDigits, mod_pow_div_ten, mod_pow_mod_ten]
    rw [h1]
    simp

theorem appendFracGo_false_zero : ∀ (p v : Nat) (acc : List Char),
    v % 10 ^ p = 0 → appendFracGo p v false acc = (acc, false) := by
  intro p
  induction p with
  | zero => intro v acc _; rfl
  | succ k ih =>
    intro v acc hz
    have hd : v % 10 = 0 := by
      rw [← mod_pow_mod_ten (p := k), hz]
    simp only [appendFracGo, hd, Bool.false_or]
    rw [if_neg (by simp)]
    apply ih
    rw [← mod_pow_div_ten, hz]

theorem appendFracGo_false_pos : ∀ (p v : Nat) (acc : List Char) (z u : Nat),
    u ≠ 0 → ¬(10 ∣ u) → v % 10 ^ p = u * 10 ^ z →
    appendFracGo p v false acc = (padDigits (p - z) u ++ acc, true) := by
  intro p
  induction p with
  | zero =>
    intro v acc z u hu0 _ hmod
    simp only [pow_zero, Nat.mod_one] at hmod
    have : u = 0 := by
      rcases Nat.mul_eq_zero.mp hmod.symm with h | h
      · exact h
      · exact absurd h (by positivity)
    exact absurd this hu0
  | succ k ih =>
    intro v acc z u hu0 hu10 hmod
    cases z with
    | zero =>
      simp only [pow_zero, mul_one] at hmod
      have hd : v % 10 = u % 10 := by
        rw [← mod_pow_mod_ten (p := k), hmod]
      have hdne : v % 10 ≠ 0 := by
        rw [hd]
        intro hc
        exact hu10 (Nat.dvd_of_mod_eq_zero hc)
      simp only [appendFracGo, Bool.false_or]
      rw [show decide (v % 10 ≠ 0) = true from decide_eq_true hdne]
      simp only [if_true]
      rw [appendFracGo_true]
      have h1 : padDigits (k + 1 - 0) u =
          padDigits k (v / 10 % 10 ^ k) ++ [Nat.digitChar (v % 10)] := by
        simp only [Nat.sub_zero, padDigits, ← mod_pow_div_ten, hmod, hd]
      rw [h1]
      simp
    | succ z1 =>
      have hd : v % 10 = 0 := by
        rw [← mod_pow_mod_ten (p := k), hmod, pow_succ]
        simp [Nat.mul_mod, Nat.mul_assoc]
      simp only [appendFracGo, hd, Bool.false_or]
      rw [if_neg (by simp)]
      have hrec : v / 10 % 10 ^ k = u * 10 ^ z1 := by
        rw [← mod_pow_div_ten, hmod, pow_succ, ← Nat.mul_assoc]
        exact Nat.mul_div_cancel _ (by norm_num)
      rw [show decide ((0 : Nat) ≠ 0) = false from by decide,
        Nat.succ_sub_succ]
      exact ih (v / 10) acc z1 u hu0 hu10 hrec

theorem trailing_decomp : ∀ n : Nat, n ≠ 0 →
    ∃ z u, u ≠ 0 ∧ ¬(10 ∣ u) ∧ n = u * 10 ^ z := by
  intro n
  induction n using Nat.strong_induction_on with
  | _ n ih =>
    intro hn
    by_cases hd : (10 : Nat) ∣ n
    · obtain ⟨m, hm⟩ := hd
      have hm0 : m ≠ 0 := by rintro rfl; omega
      have hlt : m < n := by omega
      obtain ⟨z, u, h1, h2, h3⟩ := ih m hlt hm0
      exact ⟨z + 1, u, h1, h2, by rw [hm, h3]; ring⟩
    · exact ⟨0, n, hn, hd, by ring⟩

theorem appendFrac_zero {b : List Char} : appendFrac b 0 9 = b := by
  unfold appendFrac
  rw [appendFracGo_false_zero 9 0 [] (by norm_num)]
  rfl

theorem appendFrac_pos {b : List Char} {n z u : Nat}
    (hu0 : u ≠ 0) (hu10 : ¬(10 ∣ u)) (heq : n = u * 10 ^ z)
    (hn : n < 10 ^ 9) :
    appendFrac b n 9 = b ++ '.' :: padDigits (9 - z) u := by
  unfold appendFrac
  rw [appendFracGo_false_pos 9 n [] z u hu0 hu10
    (by rw [Nat.mod_eq_of_lt hn]; exact heq)]
  simp

theorem roundDouble_zero : roundDouble 0 = 0 := by
  unfold roundDouble
  rw [if_pos rfl]

theorem roundDouble_int (m : Int) (h : m.natAbs < 9007199254740992) :
    roundDouble (m : ℚ) = (m : ℚ) := by
  unfold roundDouble
  by_cases hm : ((m : ℚ)) = 0
  · rw [if_pos hm, hm]
  · have hrepr : isRepr ((m : ℚ)) = true := by
      simp only [isRepr, Rat.intCast_den, Rat.intCast_num]
      rw [Bool.and_eq_true]
      constructor
      · rfl
      · exact decide_eq_true h
    rw [if_neg hm, if_pos hrepr]

theorem ftrunc_intCast (m : Int) : ftrunc (m : ℚ) = m := by
  unfold ftrunc
  by_cases hm : ((m : ℚ)) < 0
  · rw [if_pos hm, ← Int.cast_neg, Int.floor_intCast, neg_neg]
  · rw [if_neg hm, Int.floor_intCast]

theorem fracToInt_zero (r : Int) (sc : ℚ) : fracToInt 0 r sc = 0 := by
  unfold fracToInt intToF fmul
  rw [Int.cast_zero, roundDouble_zero, zero_mul, roundDouble_zero]
  rw [show (0 : ℚ) = ((0 : Int) : ℚ) from by norm_num, ftrunc_intCast]

theorem fracToInt_second {u k : Nat} (hk : k ≤ 9)
    (hn : u * 10 ^ (9 - k) < 10 ^ 9) :
    fracToInt (u : Int) 1000000000 ((10 : ℚ) ^ k) =
      ((u * 10 ^ (9 - k) : ℕ) : ℤ) := by
  have hu53 : u < 9007199254740992 := by
    have h1 : u ≤ u * 10 ^ (9 - k) :=
      Nat.le_mul_of_pos_right u (by positivity)
    omega
  unfold fracToInt fdiv fmul intToF
  rw [show ((u : Int) : ℚ) = (((u : ℕ) : ℤ) : ℚ) from by push_cast; ring]
  rw [roundDouble_int _ (by simpa using hu53)]
  rw [show (((1000000000 : Int)) : ℚ) = ((10 ^ 9 : ℤ) : ℚ) from by norm_num]
  rw [roundDouble_int _ (by norm_num)]
  have hdivpow : ((10 ^ 9 : ℤ) : ℚ) / (10 : ℚ) ^ k =
      ((10 ^ (9 - k) : ℤ) : ℚ) := by
    push_cast
    rw [pow_sub₀ (10 : ℚ) (by norm_num) hk]
    norm_num [div_eq_mul_inv]
  rw [hdivpow, roundDouble_int _ (by
    have h2 : (10 : ℕ) ^ (9 - k) ≤ 10 ^ 9 :=
      Nat.pow_le_pow_right (by norm_num) (by omega)
    simp only [Int.natAbs_pow]
    calc (10 : ℤ).natAbs ^ (9 - k) = 10 ^ (9 - k) := by norm_num
      _ ≤ 10 ^ 9 := h2
      _ < 9007199254740992 := by norm_num)]
  rw [show ((((u : ℕ) : ℤ)) : ℚ) * ((10 ^ (9 - k) : ℤ) : ℚ) =
      (((u * 10 ^ (9 - k) : ℕ) : ℤ) : ℚ) from by push_cast; ring]
  rw [roundDouble_int _ (by
    simp only [Int.natAbs_ofNat]
    omega), ftrunc_intCast]

theorem leadingFractionAux_exact {fs : List Char} :
    ∀ {x : Int} {j : Nat} {rest : List Char},
      (∀ c ∈ fs, isDig c = true) →
      (∀ c, rest.head? = some c → isDig c = false) →
      0 ≤ x → valGo x fs ≤ maxInt64 → j + fs.length ≤ 15 →
      leadingFractionAux x ((10 : ℚ) ^ j) false (fs ++ rest) =
        (valGo x fs, (10 : ℚ) ^ (j + fs.length), rest) := by
  induction fs with
  | nil =>
    intro x j rest _ hr _ _ _
    match rest with
    | [] => simp [leadingFractionAux, valGo]
    | c :: rs =>
      have : isDig c = false := hr c rfl
      simp [leadingFractionAux, this, valGo]
  | cons c cs ih =>
    intro x j rest hd hr hx hb hj
    have hdig : isDig c = true := hd c (List.mem_cons_self c cs)
    have hd0 : 0 ≤ dVal c := dVal_lb hdig
    have hx1 : 0 ≤ x * 10 + dVal c := by omega
    have hcs : ∀ b ∈ cs, isDig b = true :=
      fun b hb2 => hd b (List.mem_cons_of_mem c hb2)
    have hvb : valGo x (c :: cs) = valGo (x * 10 + dVal c) cs := rfl
    rw [hvb] at hb
    have hle : x * 10 + dVal c ≤ maxInt64 :=
      le_trans (valGo_le_self hx1 hcs) hb
    have hK : ¬ x > 922337203685477580 := by
      unfold maxInt64 at hle
      omega
    have hw : wrap64 (x * 10 + dVal c) = x * 10 + dVal c :=
      wrap64_eq_self (by unfold minInt64; omega) hle
    have hscale : fmul ((10 : ℚ) ^ j) 10 = (10 : ℚ) ^ (j + 1) := by
      unfold fmul
      rw [show ((10 : ℚ) ^ j) * 10 = ((10 ^ (j + 1) : ℤ) : ℚ) from by
        push_cast; ring]
      rw [roundDouble_int _ (by
        simp only [Int.natAbs_pow]
        calc (10 : ℤ).natAbs ^ (j + 1) = 10 ^ (j + 1) := by norm_num
          _ ≤ 10 ^ 15 := Nat.pow_le_pow_right (by norm_num) (by
              simp only [List.length_cons] at hj
              omega)
          _ < 9007199254740992 := by norm_num)]
      push_cast
      ring
    simp only [List.cons_append, leadingFractionAux, hdig, if_true]
    rw [if_neg (by simp), if_neg hK, hw]
    rw [if_neg (show ¬ (x * 10 + dVal c < 0) from by omega)]
    rw [hscale]
    have hih := ih (x := x * 10 + dVal c) (j := j + 1)
      hcs hr hx1 hb (by simp only [List.length_cons] at hj; omega)
    show leadingFractionAux (x * 10 + dVal c) ((10 : ℚ) ^ (j + 1)) false
      (cs ++ rest) = _
    rw [hih, hvb]
    simp only [List.length_cons]
    rw [show j + 1 + cs.length = j + (cs.length + 1) from by omega]

theorem parseIter_fracComp {orig : String} {t : Bool} {ret : Duration}
    {ds fs : List Char} {u : Char}
    (hds : ∀ c ∈ ds, isDig c = true) (hdne : ds ≠ [])
    (hfs : ∀ c ∈ fs, isDig c = true) (hfne : fs ≠ [])
    (hub : valGo 0 ds ≤ maxInt64) (hfub : valGo 0 fs ≤ maxInt64)
    (hflen : fs.length ≤ 15) (hu : isDig u = false) :
    parseIter orig t ret (ds ++ '.' :: (fs ++ [u])) =
      match applyUnit t u (valGo 0 ds) (valGo 0 fs)
          ((10 : ℚ) ^ fs.length) ret with
      | none => .error (.invalidDuration orig)
      | some ret1 => .ok (some (t, ret1, [])) := by
  have hun : ∀ c, ([u] : List Char).head? = some c → isDig c = false := by
    intro c hc
    simp only [List.head?_cons, Option.some.injEq] at hc
    subst hc
    exact hu
  have hlf : leadingFraction (fs ++ [u]) =
      (valGo 0 fs, (10 : ℚ) ^ fs.length, [u]) := by
    unfold leadingFraction
    rw [show (1 : ℚ) = (10 : ℚ) ^ (0 : ℕ) from (pow_zero 10).symm]
    rw [leadingFractionAux_exact hfs hun le_rfl hfub (by omega)]
    rw [Nat.zero_add]
  have hpost : decide ((fs ++ [u]).length ≠ ([u] : List Char).length) =
      true := by
    cases fs with
    | nil => exact absurd rfl hfne
    | cons a as => simp
  have hfp : fracPart false ('.' :: (fs ++ [u])) =
      (valGo 0 fs, (10 : ℚ) ^ fs.length, true, [u]) := by
    rw [fracPart_dot_eq hlf, hpost]
    rfl
  have hdotun : ∀ c, ('.' :: (fs ++ [u])).head? = some c →
      isDig c = false := by
    intro c hc
    simp only [List.head?_cons, Option.some.injEq] at hc
    subst hc
    decide
  cases ds with
  | nil => exact absurd rfl hdne
  | cons d ds1 =>
    have hd : isDig d = true := hds d (List.mem_cons_self d ds1)
    obtain ⟨hdT, hdm, hdp, _⟩ := isDig_not_special hd
    have hli : leadingInt (d :: (ds1 ++ '.' :: (fs ++ [u]))) =
        .ok (valGo 0 (d :: ds1), '.' :: (fs ++ [u])) :=
      leadingIntAux_append_ok hds hdotun le_rfl hub
    simp only [List.cons_append, parseIter, if_neg hdT]
    rw [show leadingNegative (d :: (ds1 ++ '.' :: (fs ++ [u]))) =
      (false, d :: (ds1 ++ '.' :: (fs ++ [u]))) from by
        simp [leadingNegative, hdm, hdp]]
    dsimp only
    rw [hli]
    dsimp only
    rw [hfp]
    dsimp only
    rw [if_neg (by simp)]
    cases happ : applyUnit t u
        (if false = true then -valGo 0 (d :: ds1) else valGo 0 (d :: ds1))
        (valGo 0 fs) ((10 : ℚ) ^ fs.length) ret with
    | none =>
      rw [show (if false = true then -valGo 0 (d :: ds1)
        else valGo 0 (d :: ds1)) = valGo 0 (d :: ds1) from by simp] at happ
      rw [happ]
    | some ret1 =>
      rw [show (if false = true then -valGo 0 (d :: ds1)
        else valGo 0 (d :: ds1)) = valGo 0 (d :: ds1) from by simp] at happ
      rw [happ]
      dsimp only
      rw [if_neg (by simp)]

theorem parseLoop_T {orig : String} {acc : Duration} {rest : List Char} :
    parseLoop orig false acc ('T' :: rest) = parseLoop orig true acc rest := by
  apply parseLoop_iter_some
  simp [parseIter]

theorem duration_update_Years_self {acc : Duration} (h : acc.Years = 0) :
    acc = { acc with Years := 0 } := by
  obtain ⟨a1, a2, a3, a4, a5, a6, a7, a8, a9⟩ := acc
  dsimp only at h
  subst h
  rfl

theorem parseLoop_partY {orig : String} {acc : Duration} {v : Int}
    {rest : List Char}
    (hv0 : 0 ≤ v) (hvm : v ≤ maxInt64) (ha : acc.Years = 0)
    (hm1 : minInt64 ≤ acc.Months) (hm2 : acc.Months ≤ maxInt64) :
    parseLoop orig false acc (fieldChars v 'Y' ++ rest) =
      parseLoop orig false { acc with Years := v } rest := by
  by_cases hz : v = 0
  · subst hz
    unfold fieldChars
    rw [if_neg (by simp)]
    rw [List.nil_append, ← duration_update_Years_self ha]
  · obtain ⟨hd1, hd2, hd3⟩ := natDigits_spec (toNat_lt_pow64 hv0 hvm)
    have hval : valGo 0 (natDigits v.toNat) = v := by
      rw [hd2, Int.toNat_of_nonneg hv0]
    unfold fieldChars
    rw [if_pos hz, intToChars_of_nonneg hv0]
    rw [show (natDigits v.toNat ++ ['Y']) ++ rest =
      natDigits v.toNat ++ 'Y' :: rest from by simp]
    apply parseLoop_intComp hd1 hd3 (by rw [hval]; exact hvm) (by decide)
      (by decide)
    rw [hval]
    unfold applyUnit
    rw [if_pos rfl, if_pos rfl, fracToInt_zero, add_zero, ha, zero_add,
      wrap64_eq_self (by unfold minInt64; omega) hvm,
      wrap64_eq_self hm1 hm2]

theorem u64ofInt_nonneg {s : Int} (h0 : 0 ≤ s) (hm : s ≤ maxInt64) :
    u64ofInt s = s.toNat := by
  unfold u64ofInt
  unfold maxInt64 at hm
  congr 1
  omega

theorem appendFrac_shift (b : List Char) (v p : Nat) :
    appendFrac b v p = b ++ appendFrac [] v p := by
  unfold appendFrac
  rcases h : appendFracGo p v false [] with ⟨acc, pr⟩
  dsimp only
  cases pr <;> simp

theorem duration_update_Months_self {acc : Duration} (h : acc.Months = 0) :
    acc = { acc with Months := 0 } := by
  obtain ⟨a1, a2, a3, a4, a5, a6, a7, a8, a9⟩ := acc
  dsimp only at h
  subst h
  rfl

theorem parseLoop_partM {orig : String} {acc : Duration} {v : Int}
    {rest : List Char}
    (hv0 : 0 ≤ v) (hvm : v ≤ maxInt64) (ha : acc.Months = 0)
    (hm1 : minInt64 ≤ acc.Weeks) (hm2 : acc.Weeks ≤ maxInt64) :
    parseLoop orig false acc (fieldChars v 'M' ++ rest) =
      parseLoop orig false { acc with Months := v } rest := by
  by_cases hz : v = 0
  · subst hz
    unfold fieldChars
    rw [if_neg (by simp)]
    rw [List.nil_append, ← duration_update_Months_self ha]
  · obtain ⟨hd1, hd2, hd3⟩ := natDigits_spec (toNat_lt_pow64 hv0 hvm)
    have hval : valGo 0 (natDigits v.toNat) = v := by
      rw [hd2, Int.toNat_of_nonneg hv0]
    unfold fieldChars
    rw [if_pos hz, intToChars_of_nonneg hv0]
    rw [show (natDigits v.toNat ++ ['M']) ++ rest =
      natDigits v.toNat ++ 'M' :: rest from by simp]
    apply parseLoop_intComp hd1 hd3 (by rw [hval]; exact hvm) (by decide)
      (by decide)
    rw [hval]
    unfold applyUnit
    rw [if_pos rfl, if_neg (by decide), if_pos rfl, fracToInt_zero,
      add_zero, ha, zero_add,
      wrap64_eq_self (by unfold minInt64; omega) hvm,
      wrap64_eq_self hm1 hm2]

theorem duration_update_Weeks_self {acc : Duration} (h : acc.Weeks = 0) :
    acc = { acc with Weeks := 0 } := by
  obtain ⟨a1, a2, a3, a4, a5, a6, a7, a8, a9⟩ := acc
  dsimp only at h
  subst h
  rfl

theorem parseLoop_partW {orig : String} {acc : Duration} {v : Int}
    {rest : List Char}
    (hv0 : 0 ≤ v) (hvm : v ≤ maxInt64) (ha : acc.Weeks = 0)
    (hm1 : minInt64 ≤ acc.Days) (hm2 : acc.Days ≤ maxInt64) :
    parseLoop orig false acc (fieldChars v 'W' ++ rest) =
      parseLoop orig false { acc with Weeks := v } rest := by
  by_cases hz : v = 0
  · subst hz
    unfold fieldChars
    rw [if_neg (by simp)]
    rw [List.nil_append, ← duration_update_Weeks_self ha]
  · obtain ⟨hd1, hd2, hd3⟩ := natDigits_spec (toNat_lt_pow64 hv0 hvm)
    have hval : valGo 0 (natDigits v.toNat) = v := by
      rw [hd2, Int.toNat_of_nonneg hv0]
    unfold fieldChars
    rw [if_pos hz, intToChars_of_nonneg hv0]
    rw [show (natDigits v.toNat ++ ['W']) ++ rest =
      natDigits v.toNat ++ 'W' :: rest from by simp]
    apply parseLoop_intComp hd1 hd3 (by rw [hval]; exact hvm) (by decide)
      (by decide)
    rw [hval]
    unfold applyUnit
    rw [if_pos rfl, if_neg (by decide), if_neg (by decide), if_pos rfl,
      fracToInt_zero, add_zero, ha, zero_add,
      wrap64_eq_self (by unfold minInt64; omega) hvm,
      wrap64_eq_self hm1 hm2]

theorem duration_update_Days_self {acc : Duration} (h : acc.Days = 0) :
    acc = { acc with Days := 0 } := by
  obtain ⟨a1, a2, a3, a4, a5, a6, a7, a8, a9⟩ := acc
  dsimp only at h
  subst h
  rfl

theorem parseLoop_partD {orig : String} {acc : Duration} {v : Int}
    {rest : List Char}
    (hv0 : 0 ≤ v) (hvm : v ≤ maxInt64) (ha : acc.Days = 0)
    (hm1 : minInt64 ≤ acc.Hours) (hm2 : acc.Hours ≤ maxInt64) :
    parseLoop orig false acc (fieldChars v 'D' ++ rest) =
      parseLoop orig false { acc with Days := v } rest := by
  by_cases hz : v = 0
  · subst hz
    unfold fieldChars
    rw [if_neg (by simp)]
    rw [List.nil_append, ← duration_update_Days_self ha]
  · obtain ⟨hd1, hd2, hd3⟩ := natDigits_spec (toNat_lt_pow64 hv0 hvm)
    have hval : valGo 0 (natDigits v.toNat) = v := by
      rw [hd2, Int.toNat_of_nonneg hv0]
    unfold fieldChars
    rw [if_pos hz, intToChars_of_nonneg hv0]
    rw [show (natDigits v.toNat ++ ['D']) ++ rest =
      natDigits v.toNat ++ 'D' :: rest from by simp]
    apply parseLoop_intComp hd1 hd3 (by rw [hval]; exact hvm) (by decide)
      (by decide)
    rw [hval]
    unfold applyUnit
    rw [if_pos rfl, if_neg (by decide), if_neg (by decide),
      if_neg (by decide), if_pos rfl, fracToInt_zero, add_zero, ha,
      zero_add, wrap64_eq_self (by unfold minInt64; omega) hvm,
      wrap64_eq_self hm1 hm2]

theorem duration_update_Hours_self {acc : Duration} (h : acc.Hours = 0) :
    acc = { acc with Hours := 0 } := by
  obtain ⟨a1, a2, a3, a4, a5, a6, a7, a8, a9⟩ := acc
  dsimp only at h
  subst h
  rfl

theorem parseLoop_partH {orig : String} {acc : Duration} {v : Int}
    {rest : List Char}
    (hv0 : 0 ≤ v) (hvm : v ≤ maxInt64) (ha : acc.Hours = 0)
    (hm1 : minInt64 ≤ acc.Minutes) (hm2 : acc.Minutes ≤ maxInt64) :
    parseLoop orig true acc (fieldChars v 'H' ++ rest) =
      parseLoop orig true { acc with Hours := v } rest := by
  by_cases hz : v = 0
  · subst hz
    unfold fieldChars
    rw [if_neg (by simp)]
    rw [List.nil_append, ← duration_update_Hours_self ha]
  · obtain ⟨hd1, hd2, hd3⟩ := natDigits_spec (toNat_lt_pow64 hv0 hvm)
    have hval : valGo 0 (natDigits v.toNat) = v := by
      rw [hd2, Int.toNat_of_nonneg hv0]
    unfold fieldChars
    rw [if_pos hz, intToChars_of_nonneg hv0]
    rw [show (natDigits v.toNat ++ ['H']) ++ rest =
      natDigits v.toNat ++ 'H' :: rest from by simp]
    apply parseLoop_intComp hd1 hd3 (by rw [hval]; exact hvm) (by decide)
      (by decide)
    rw [hval]
    unfold applyUnit
    rw [if_neg (by simp), if_pos rfl, fracToInt_zero, add_zero, ha,
      zero_add, wrap64_eq_self (by unfold minInt64; omega) hvm,
      wrap64_eq_self hm1 hm2]

theorem duration_update_Minutes_self {acc : Duration} (h : acc.Minutes = 0) :
    acc = { acc with Minutes := 0 } := by
  obtain ⟨a1, a2, a3, a4, a5, a6, a7, a8, a9⟩ := acc
  dsimp only at h
  subst h
  rfl

theorem parseLoop_partMin {orig : String} {acc : Duration} {v : Int}
    {rest : List Char}
    (hv0 : 0 ≤ v) (hvm : v ≤ maxInt64) (ha : acc.Minutes = 0)
    (hm1 : minInt64 ≤ acc.Seconds) (hm2 : acc.Seconds ≤ maxInt64) :
    parseLoop orig true acc (fieldChars v 'M' ++ rest) =
      parseLoop orig true { acc with Minutes := v } rest := by
  by_cases hz : v = 0
  · subst hz
    unfold fieldChars
    rw [if_neg (by simp)]
    rw [List.nil_append, ← duration_update_Minutes_self ha]
  · obtain ⟨hd1, hd2, hd3⟩ := natDigits_spec (toNat_lt_pow64 hv0 hvm)
    have hval : valGo 0 (natDigits v.toNat) = v := by
      rw [hd2, Int.toNat_of_nonneg hv0]
    unfold fieldChars
    rw [if_pos hz, intToChars_of_nonneg hv0]
    rw [show (natDigits v.toNat ++ ['M']) ++ rest =
      natDigits v.toNat ++ 'M' :: rest from by simp]
    apply parseLoop_intComp hd1 hd3 (by rw [hval]; exact hvm) (by decide)
      (by decide)
    rw [hval]
    unfold applyUnit
    rw [if_neg (by simp), if_neg (by decide), if_pos rfl, fracToInt_zero,
      add_zero, ha, zero_add,
      wrap64_eq_self (by unfold minInt64; omega) hvm,
      wrap64_eq_self hm1 hm2]

theorem secondsChars_decomp {s ns : Int} (hs0 : 0 ≤ s) (hsm : s ≤ maxInt64)
    (hns0 : 0 ≤ ns) (_ : ns ≤ 999999999) :
    secondsChars s ns =
      natDigits s.toNat ++ (appendFrac [] ns.toNat 9 ++ ['S']) := by
  unfold secondsChars
  dsimp only
  simp only [if_neg (show ¬ s < 0 from by omega),
    if_neg (show ¬ ns < 0 from by omega)]
  rw [u64ofInt_nonneg hs0 hsm,
    u64ofInt_nonneg hns0 (by unfold maxInt64; omega)]
  rw [List.nil_append, appendFrac_shift]
  simp

theorem parseLoop_partS {orig : String} {acc : Duration} {s ns : Int}
    (hs0 : 0 ≤ s) (hsm : s ≤ maxInt64) (hns0 : 0 ≤ ns)
    (hnsm : ns ≤ 999999999)
    (haS : acc.Seconds = 0) (haN : acc.Nanoseconds = 0) :
    parseLoop orig true acc (secondsChars s ns) =
      .ok { acc with Seconds := s, Nanoseconds := ns } := by
  rw [secondsChars_decomp hs0 hsm hns0 hnsm]
  obtain ⟨hd1, hd2, hd3⟩ := natDigits_spec (toNat_lt_pow64 hs0 hsm)
  have hval : valGo 0 (natDigits s.toNat) = s := by
    rw [hd2, Int.toNat_of_nonneg hs0]
  by_cases hns : ns = 0
  · subst hns
    rw [show (0 : Int).toNat = 0 from rfl, appendFrac_zero, List.nil_append]
    rw [show natDigits s.toNat ++ ['S'] =
      natDigits s.toNat ++ 'S' :: [] from rfl]
    rw [parseLoop_intComp hd1 hd3 (by rw [hval]; exact hsm) (by decide)
      (by decide) ?_, parseLoop_nil]
    rw [hval]
    unfold applyUnit
    rw [if_neg (by simp), if_neg (by decide), if_neg (by decide),
      if_pos rfl, fracToInt_zero, add_zero, haS, haN, zero_add,
      wrap64_eq_self (by unfold minInt64; omega) hsm,
      wrap64_eq_self (by unfold minInt64; omega) (by unfold maxInt64; omega)]
  · obtain ⟨z, uu, hu0, hu10, huz⟩ := trailing_decomp ns.toNat (by omega)
    have hnslt : ns.toNat < 10 ^ 9 := by omega
    have hzle : z ≤ 8 := by
      by_contra hcon
      push_neg at hcon
      have h10 : (10 : ℕ) ^ 9 ≤ 10 ^ z := Nat.pow_le_pow_right (by norm_num) hcon
      have huge : 10 ^ z ≤ uu * 10 ^ z := Nat.le_mul_of_pos_left _ (by omega)
      omega
    have hulT : uu < 10 ^ (9 - z) := by
      by_contra hcon
      push_neg at hcon
      have h1 : (10 : ℕ) ^ (9 - z) * 10 ^ z ≤ uu * 10 ^ z :=
        Nat.mul_le_mul_right _ hcon
      rw [← pow_add] at h1
      rw [show 9 - z + z = 9 from by omega] at h1
      omega
    rw [appendFrac_pos hu0 hu10 huz hnslt, List.nil_append]
    simp only [List.cons_append]
    have hfs1 := padDigits_allDig (9 - z) uu
    have hfne : padDigits (9 - z) uu ≠ [] := padDigits_ne_nil (by omega)
    have hfval : valGo 0 (padDigits (9 - z) uu) = (uu : Int) :=
      padDigits_val (9 - z) uu hulT
    have hfub : valGo 0 (padDigits (9 - z) uu) ≤ maxInt64 := by
      rw [hfval]
      unfold maxInt64
      have : uu ≤ ns.toNat := by
        calc uu ≤ uu * 10 ^ z := Nat.le_mul_of_pos_right _ (by positivity)
          _ = ns.toNat := huz.symm
      omega
    have hflen : (padDigits (9 - z) uu).length ≤ 15 := by
      rw [padDigits_len]
      omega
    have hiter := @parseIter_fracComp orig true acc (natDigits s.toNat)
      (padDigits (9 - z) uu) 'S'
      hd1 hd3 hfs1 hfne (by rw [hval]; exact hsm) hfub hflen
      (by decide)
    have happ : applyUnit true 'S' (valGo 0 (natDigits s.toNat))
        (valGo 0 (padDigits (9 - z) uu))
        ((10 : ℚ) ^ (padDigits (9 - z) uu).length) acc =
        some { acc with Seconds := s, Nanoseconds := ns } := by
      rw [hval, hfval, padDigits_len]
      unfold applyUnit
      rw [if_neg (by simp), if_neg (by decide), if_neg (by decide),
        if_pos rfl]
      rw [show secondC.tdiv nanosecondC = 1000000000 from by decide]
      rw [fracToInt_second (by omega) (by
        rw [show 9 - (9 - z) = z from by omega]
        omega)]
      rw [show 9 - (9 - z) = z from by omega, ← huz,
        Int.toNat_of_nonneg hns0]
      rw [haS, haN, zero_add, zero_add,
        wrap64_eq_self (by unfold minInt64; omega) hsm,
        wrap64_eq_self (by unfold minInt64; omega)
          (by unfold maxInt64; omega)]
    have hiter2 : parseIter orig true acc
        (natDigits s.toNat ++ '.' :: (padDigits (9 - z) uu ++ ['S'])) =
        .ok (some (true, { acc with Seconds := s, Nanoseconds := ns },
          [])) := by
      rw [hiter, happ]
    rw [parseLoop_iter_some hiter2, parseLoop_nil]

theorem ite_append_shift {c : Prop} [Decidable c] (b x : List Char) :
    (if c then b ++ x else b) = b ++ (if c then x else []) := by
  split <;> simp

theorem AppendFormat_decomp (d : Duration) :
    d.AppendFormat [] =
      (if d.Negative = true then ['-'] else []) ++
        'P' :: (if formatBody d = [] then ['0', 'D'] else formatBody d) := by
  unfold Duration.AppendFormat
  dsimp only
  by_cases hfb : formatBody d = []
  · rw [if_pos hfb]
    unfold formatBody at hfb
    simp only [List.append_eq_nil] at hfb
    obtain ⟨⟨⟨⟨⟨⟨⟨e1, e2⟩, e3⟩, e4⟩, e5⟩, e6⟩, e7⟩, e8⟩ := hfb
    rw [e1, e2, e3, e4, e5, e6, e7, e8]
    simp
  · rw [if_neg hfb]
    rw [if_neg (by
      simp only [List.length_append]
      intro hc
      apply hfb
      unfold formatBody
      rw [← List.length_eq_zero]
      simp only [List.length_append]
      omega)]
    unfold formatBody
    simp [List.append_assoc]
theorem fieldChars_nil {v : Int} {u : Char} (h : fieldChars v u = []) :
    v = 0 := by
  by_contra hc
  unfold fieldChars at h
  rw [if_pos hc] at h
  simp at h

theorem parse_format_body (d : Duration)
    (hY1 : 0 ≤ d.Years) (hY2 : d.Years ≤ maxInt64)
    (hMo1 : 0 ≤ d.Months) (hMo2 : d.Months ≤ maxInt64)
    (hW1 : 0 ≤ d.Weeks) (hW2 : d.Weeks ≤ maxInt64)
    (hD1 : 0 ≤ d.Days) (hD2 : d.Days ≤ maxInt64)
    (hH1 : 0 ≤ d.Hours) (hH2 : d.Hours ≤ maxInt64)
    (hMi1 : 0 ≤ d.Minutes) (hMi2 : d.Minutes ≤ maxInt64)
    (hS1 : 0 ≤ d.Seconds) (hS2 : d.Seconds ≤ maxInt64)
    (hN1 : 0 ≤ d.Nanoseconds) (hN2 : d.Nanoseconds ≤ 999999999)
    (orig : String) :
    parseLoop orig false { Negative := d.Negative }
      (if formatBody d = [] then ['0', 'D'] else formatBody d) = .ok d := by
  by_cases hfb : formatBody d = []
  · rw [if_pos hfb]
    unfold formatBody at hfb
    simp only [List.append_eq_nil] at hfb
    obtain ⟨⟨⟨⟨⟨⟨⟨e1, e2⟩, e3⟩, e4⟩, e5⟩, e6⟩, e7⟩, e8⟩ := hfb
    have hYz := fieldChars_nil e1
    have hMoz := fieldChars_nil e2
    have hWz := fieldChars_nil e3
    have hDz := fieldChars_nil e4
    have hHz := fieldChars_nil e6
    have hMiz := fieldChars_nil e7
    have hSNz : d.Seconds = 0 ∧ d.Nanoseconds = 0 := by
      unfold sChars at e8
      by_cases hc : d.Seconds ≠ 0 ∨ d.Nanoseconds ≠ 0
      · rw [if_pos hc] at e8
        unfold secondsChars at e8
        dsimp only at e8
        simp only [List.append_eq_nil] at e8
        exact absurd e8.2 (by simp)
      · push_neg at hc
        exact hc
    have hde : ({ Negative := d.Negative } : Duration) = d := by
      obtain ⟨a1, a2, a3, a4, a5, a6, a7, a8, a9⟩ := d
      dsimp only at hYz hMoz hWz hDz hHz hMiz hSNz
      rw [hYz, hMoz, hWz, hDz, hHz, hMiz, hSNz.1, hSNz.2]
    have happ : ∀ ng : Bool, applyUnit false 'D' 0 0 1
        ({ Negative := ng } : Duration) = some { Negative := ng } := by
      intro ng
      cases ng <;> with_unfolding_all rfl
    rw [show (['0', 'D'] : List Char) = ['0'] ++ 'D' :: [] from rfl]
    rw [parseLoop_intComp (by decide) (by decide) (by decide) (by decide)
      (by decide) (by rw [show valGo 0 ['0'] = (0 : Int) from by decide]
                      exact happ d.Negative)]
    rw [parseLoop_nil, hde]
  · rw [if_neg hfb]
    unfold formatBody
    simp only [List.append_assoc]
    rw [parseLoop_partY hY1 hY2 rfl
      (by show minInt64 ≤ (0 : Int); decide)
      (by show (0 : Int) ≤ maxInt64; decide)]
    rw [parseLoop_partM hMo1 hMo2 rfl
      (by show minInt64 ≤ (0 : Int); decide)
      (by show (0 : Int) ≤ maxInt64; decide)]
    rw [parseLoop_partW hW1 hW2 rfl
      (by show minInt64 ≤ (0 : Int); decide)
      (by show (0 : Int) ≤ maxInt64; decide)]
    rw [parseLoop_partD hD1 hD2 rfl
      (by show minInt64 ≤ (0 : Int); decide)
      (by show (0 : Int) ≤ maxInt64; decide)]
    by_cases ht : d.Hours ≠ 0 ∨ d.Minutes ≠ 0 ∨ d.Seconds ≠ 0 ∨
        d.Nanoseconds ≠ 0
    · rw [show timeMark d = ['T'] from by unfold timeMark; rw [if_pos ht]]
      simp only [List.cons_append, List.nil_append]
      rw [parseLoop_T]
      rw [parseLoop_partH hH1 hH2 rfl
        (by show minInt64 ≤ (0 : Int); decide)
        (by show (0 : Int) ≤ maxInt64; decide)]
      rw [parseLoop_partMin hMi1 hMi2 rfl
        (by show minInt64 ≤ (0 : Int); decide)
        (by show (0 : Int) ≤ maxInt64; decide)]
      by_cases hs : d.Seconds ≠ 0 ∨ d.Nanoseconds ≠ 0
      · rw [show sChars d = secondsChars d.Seconds d.Nanoseconds from by
          unfold sChars; rw [if_pos hs]]
        rw [parseLoop_partS hS1 hS2 hN1 hN2 rfl rfl]
      · push_neg at hs
        obtain ⟨hs1, hs2⟩ := hs
        rw [show sChars d = [] from by
          unfold sChars
          rw [if_neg (by push_neg; exact ⟨hs1, hs2⟩)]]
        rw [parseLoop_nil]
        have hde : (⟨d.Years, d.Months, d.Weeks, d.Days, d.Hours,
            d.Minutes, 0, 0, d.Negative⟩ : Duration) = d := by
          obtain ⟨a1, a2, a3, a4, a5, a6, a7, a8, a9⟩ := d
          dsimp only at hs1 hs2
          rw [hs1, hs2]
        rw [hde]
    · push_neg at ht
      obtain ⟨ht1, ht2, ht3, ht4⟩ := ht
      rw [show timeMark d = [] from by
        unfold timeMark
        rw [if_neg (by push_neg; exact ⟨ht1, ht2, ht3, ht4⟩)]]
      rw [show fieldChars d.Hours 'H' = [] from by
        unfold fieldChars; rw [if_neg (by simpa using ht1)]]
      rw [show fieldChars d.Minutes 'M' = [] from by
        unfold fieldChars; rw [if_neg (by simpa using ht2)]]
      rw [show sChars d = [] from by
        unfold sChars
        rw [if_neg (by push_neg; exact ⟨ht3, ht4⟩)]]
      simp only [List.nil_append]
      rw [parseLoop_nil]
      have hde : (⟨d.Years, d.Months, d.Weeks, d.Days, 0, 0, 0, 0,
          d.Negative⟩ : Duration) = d := by
        obtain ⟨a1, a2, a3, a4, a5, a6, a7, a8, a9⟩ := d
        dsimp only at ht1 ht2 ht3 ht4
        rw [ht1, ht2, ht3, ht4]
      rw [hde]

/-- C8.  Round-trip: for every Duration whose magnitude fields are all
non-negative 64-bit values with nanoseconds in `[0, 999999999]`
(`Negative` arbitrary), parsing the formatted text succeeds and yields
the same Duration field-for-field. -/
theorem c8_format_parse_roundtrip (d : Duration)
    (hY1 : 0 ≤ d.Years) (hY2 : d.Years ≤ maxInt64)
    (hMo1 : 0 ≤ d.Months) (hMo2 : d.Months ≤ maxInt64)
    (hW1 : 0 ≤ d.Weeks) (hW2 : d.Weeks ≤ maxInt64)
    (hD1 : 0 ≤ d.Days) (hD2 : d.Days ≤ maxInt64)
    (hH1 : 0 ≤ d.Hours) (hH2 : d.Hours ≤ maxInt64)
    (hMi1 : 0 ≤ d.Minutes) (hMi2 : d.Minutes ≤ maxInt64)
    (hS1 : 0 ≤ d.Seconds) (hS2 : d.Seconds ≤ maxInt64)
    (hN1 : 0 ≤ d.Nanoseconds) (hN2 : d.Nanoseconds ≤ 999999999) :
    ParseDuration d.String = .ok d := by
  have hmain := parse_format_body d hY1 hY2 hMo1 hMo2 hW1 hW2 hD1 hD2
    hH1 hH2 hMi1 hMi2 hS1 hS2 hN1 hN2 d.String
  rw [ParseDuration_eq_loop]
  rw [show (Duration.String d).toList = d.AppendFormat [] from rfl]
  rw [AppendFormat_decomp d]
  cases hnegv : d.Negative with
  | true =>
    rw [hnegv] at hmain
    rw [show ((if (true : Bool) = true then ['-'] else []) ++ 'P' ::
      (if formatBody d = [] then ['0', 'D'] else formatBody d)) =
      '-' :: 'P' :: (if formatBody d = [] then ['0', 'D']
        else formatBody d) from by rw [if_pos rfl, List.singleton_append]]
    rw [show leadingNegative ('-' :: 'P' ::
      (if formatBody d = [] then ['0', 'D'] else formatBody d)) =
      (true, 'P' :: (if formatBody d = [] then ['0', 'D']
        else formatBody d)) from by simp [leadingNegative]]
    exact hmain
  | false =>
    rw [hnegv] at hmain
    rw [if_neg (by simp), List.nil_append]
    rw [show leadingNegative ('P' ::
      (if formatBody d = [] then ['0', 'D'] else formatBody d)) =
      (false, 'P' :: (if formatBody d = [] then ['0', 'D']
        else formatBody d)) from by
        unfold leadingNegative
        dsimp only
        rw [if_neg (by decide), if_neg (by decide)]]
    exact hmain

/-- C8 witness: the round-trip theorem applied at the concrete Duration
with years=1, months=2, weeks=3, days=4, hours=5, minutes=6, seconds=7,
nanoseconds=500000000 and the negative flag set (its text is
`-P1Y2M3W4DT5H6M7.5S`). -/
theorem c8_format_parse_roundtrip_witness :
    ParseDuration ((⟨1, 2, 3, 4, 5, 6, 7, 500000000, true⟩ :
      Duration)).String =
      .ok (⟨1, 2, 3, 4, 5, 6, 7, 500000000, true⟩ : Duration) :=
  c8_format_parse_roundtrip _ (by decide) (by decide) (by decide)
    (by decide) (by decide) (by decide) (by decide) (by decide)
    (by decide) (by decide) (by decide) (by decide) (by decide)
    (by decide) (by decide) (by decide)

end ISO8601
